import Mathlib

/-!
# Verification of the statistics-bootstrap numeric kernels

Shallow embedding of the two C++ source files of the repository:

* `src/boot.cc` — balanced bootstrap / bootknife index sampling (`boot`).
* `src/smoothmedian.cpp` — smoothed-median solver (`mexFunction`).

Modelling conventions:

* C `int` counters become `ℤ`; array indices become `ℕ`.
* The Mersenne-Twister uniform draws of `boot.cc` are abstracted as a stream
  `q : ℕ → ℚ` of values, quantified over all streams with `0 ≤ q t < 1`
  (the distribution `std::uniform_real_distribution<float>(0,1)` produces
  values in `[0,1)`); `k = dist(rng) * (N - m)` truncates a non-negative
  value toward zero, i.e. takes a floor.
* IEEE doubles in `smoothmedian.cpp` are modelled by `FP`: exact rational
  finite values (rounding of finite arithmetic is idealized away) together
  with `inf`, `ninf` and `nan` carrying the IEEE special-value rules for
  the operations the source uses.  The binary64 constants `0.5` and `1e-4`
  are modelled by the rationals `1/2` and `1/10000` (no claim depends on
  the low-order bits of `1e-4`).
* `sqrt` on finite values is not rationally representable; the solver is
  parametrized by `fsq : ℚ → ℚ` used for finite square roots.  Every
  theorem below holds for every choice of `fsq`: no settled claim depends
  on the numeric value of a square root.
* `mexErrMsgTxt` / `print_usage` aborts become `Except` errors.
-/

/-! ## Embedding of `src/boot.cc` -/

/-- The cumulative-sum walk of `boot.cc` lines 77-87: `d` is the running
cumulative sum, the walk returns the first index `j` with `k < d + c[0] + ⋯
+ c[j]`, or `none` when the loop falls off the end without a `break`
(in C that path also reads one past the end of the counter array). -/
def cumFind (k : ℤ) : ℤ → List ℤ → Option ℕ
  | _, [] => none
  | d, x :: rest => if k < d + x then some 0 else (cumFind k (d + x) rest).map (· + 1)

/-- Result of one draw of `boot.cc` lines 69-92: the updated counter array,
the updated remaining total `N`, and the value written to `bootsam(i, b)`
(`0`, the freshly allocated array's content, when the walk found no index). -/
structure DrawOut where
  c : List ℤ
  N : ℤ
  idx : ℤ
deriving DecidableEq, Repr

/-- One draw (the body of the row loop, `boot.cc` lines 69-92).  `u` is the
unbiased (bootknife) flag, `r` the leave-one-out index of the current
column, `q` the uniform value in `[0,1)` produced by the generator for this
draw.  When `u` is set and `c[r] ≠ N`, the count of `r` is temporarily
zeroed (leave-one-out) and restored right after the draw. -/
def bootDraw (u : Bool) (r : ℕ) (q : ℚ) (c : List ℤ) (N : ℤ) : DrawOut :=
  if u && decide (c.getD r 0 ≠ N) then
    -- leave-one-out: `m = c[r]; c[r] = 0`, draw `k` over `[0, N - m)`,
    -- walk, then restore `c[r] = m`
    match cumFind (⌊q * ((N - c.getD r 0 : ℤ) : ℚ)⌋) 0 (c.set r 0) with
    | some j =>
        ⟨(((c.set r 0).set j ((c.set r 0).getD j 0 - 1)).set r (c.getD r 0)),
          N - 1, (j : ℤ) + 1⟩
    | none => ⟨(c.set r 0).set r (c.getD r 0), N, 0⟩
  else
    -- ordinary draw (`m` stays `0`): draw `k` over `[0, N)` and walk
    match cumFind (⌊q * (N : ℚ)⌋) 0 c with
    | some j => ⟨c.set j (c.getD j 0 - 1), N - 1, (j : ℤ) + 1⟩
    | none => ⟨c, N, 0⟩

/-- Result of a run of consecutive draws: the emitted column entries and the
final counter state. -/
structure RowsOut where
  col : List ℤ
  c : List ℤ
  N : ℤ
deriving DecidableEq, Repr

/-- The row loop of `boot.cc` lines 68-93 for `i` remaining rows; `t0` is
the index in the draw stream of the next uniform value to consume. -/
def bootRows (u : Bool) (r : ℕ) (q : ℕ → ℚ) : ℕ → ℕ → List ℤ → ℤ → RowsOut
  | _, 0, c, N => ⟨[], c, N⟩
  | t0, i + 1, c, N =>
      let d := bootDraw u r (q t0) c N
      let rest := bootRows u r q (t0 + 1) i d.c d.N
      ⟨d.idx :: rest.col, rest.c, rest.N⟩

/-- Result of a run of consecutive resample columns. -/
structure ColsOut where
  cols : List (List ℤ)
  c : List ℤ
  N : ℤ
deriving DecidableEq, Repr

/-- The column loop of `boot.cc` lines 64-94 for `nb` remaining columns,
`b` being the index of the next column.  `r = b - (b/n)*n = b % n` is the
leave-one-out index computed at line 66 (only consulted when `u`). -/
def bootCols (u : Bool) (n : ℕ) (q : ℕ → ℚ) : ℕ → ℕ → List ℤ → ℤ → ColsOut
  | 0, _, c, N => ⟨[], c, N⟩
  | nb + 1, b, c, N =>
      let rows := bootRows u (b % n) q (b * n) n c N
      let rest := bootCols u n q nb (b + 1) rows.c rows.N
      ⟨rows.col :: rest.cols, rest.c, rest.N⟩

/-- `boot (n, nboot, u)` of `boot.cc`: counters all start at `nboot`
(lines 49-51), the remaining total starts at `n * nboot` (line 52), and the
`n × nboot` output matrix is returned as its list of `nboot` columns, each
of length `n`. -/
def boot (n nboot : ℕ) (u : Bool) (q : ℕ → ℚ) : List (List ℤ) :=
  (bootCols u n q nboot 0 (List.replicate n (nboot : ℤ)) ((n : ℤ) * nboot)).cols

/-- The counter state `(c, N)` reached after `b` complete resample columns
followed by `i` further draws of column `b` — the states the generation run
passes through. -/
def bootStateAfter (n nboot : ℕ) (u : Bool) (q : ℕ → ℚ) (b i : ℕ) : List ℤ × ℤ :=
  let afterCols := bootCols u n q b 0 (List.replicate n (nboot : ℤ)) ((n : ℤ) * nboot)
  let rows := bootRows u (b % n) q (b * n) i afterCols.c afterCols.N
  (rows.c, rows.N)

/-- Errors surfaced by the Octave wrapper of `boot.cc`. -/
inductive BootErr where
  | usage
deriving DecidableEq, Repr

/-- The full `DEFUN_DLD` entry point of `boot.cc`: the only validation the
source performs is the argument-count check at lines 38-39 (`print_usage`
when `args.length () != 3`); `n` and `nboot` are never checked for
positivity. -/
def bootCall (nargs : ℕ) (n nboot : ℕ) (u : Bool) (q : ℕ → ℚ) :
    Except BootErr (List (List ℤ)) :=
  if nargs ≠ 3 then Except.error BootErr.usage
  else Except.ok (boot n nboot u q)

/-- Number of occurrences of value `v` over the whole matrix. -/
def countAll (v : ℤ) (cols : List (List ℤ)) : ℕ :=
  (cols.map fun col => col.count v).sum

/-- Fixed stream of uniform draws used by concrete witnesses. -/
def zeroDraws : ℕ → ℚ := fun _ => 0

/-! ## An IEEE-style double model for `src/smoothmedian.cpp`

Finite values are exact rationals; `inf`, `ninf` and `nan` follow the IEEE
rules for the comparisons and arithmetic the source performs (comparisons
with `nan` are false, `inf - inf = nan`, `inf * 0 = nan`, division of a
nonzero finite value by zero gives a signed infinity, …).  Signed zero is
idealized to the single rational `0`. -/

inductive FP where
  | fin (q : ℚ)
  | inf
  | ninf
  | nan
deriving DecidableEq, Repr

namespace FP

/-- `mxIsFinite`. -/
def isFinite : FP → Bool
  | fin _ => true
  | _ => false

/-- IEEE `<`. -/
def lt : FP → FP → Bool
  | fin a, fin b => decide (a < b)
  | fin _, inf => true
  | ninf, fin _ => true
  | ninf, inf => true
  | _, _ => false

/-- IEEE `<=`. -/
def le : FP → FP → Bool
  | nan, _ => false
  | _, nan => false
  | ninf, _ => true
  | _, inf => true
  | fin a, fin b => decide (a ≤ b)
  | _, _ => false

/-- IEEE negation. -/
def neg : FP → FP
  | fin a => fin (-a)
  | inf => ninf
  | ninf => inf
  | nan => nan

/-- IEEE addition (finite part exact). -/
def add : FP → FP → FP
  | nan, _ => nan
  | _, nan => nan
  | inf, ninf => nan
  | ninf, inf => nan
  | inf, _ => inf
  | _, inf => inf
  | ninf, _ => ninf
  | _, ninf => ninf
  | fin a, fin b => fin (a + b)

/-- IEEE subtraction: `a - b = a + (-b)`. -/
def sub (a b : FP) : FP := a.add b.neg

/-- IEEE multiplication (finite part exact). -/
def mul : FP → FP → FP
  | nan, _ => nan
  | _, nan => nan
  | inf, inf => inf
  | inf, ninf => ninf
  | ninf, inf => ninf
  | ninf, ninf => inf
  | inf, fin b => if 0 < b then inf else if b < 0 then ninf else nan
  | ninf, fin b => if 0 < b then ninf else if b < 0 then inf else nan
  | fin a, inf => if 0 < a then inf else if a < 0 then ninf else nan
  | fin a, ninf => if 0 < a then ninf else if a < 0 then inf else nan
  | fin a, fin b => fin (a * b)

/-- IEEE division (finite part exact; zero is unsigned so `1/0 = inf`). -/
def div : FP → FP → FP
  | nan, _ => nan
  | _, nan => nan
  | inf, inf => nan
  | inf, ninf => nan
  | ninf, inf => nan
  | ninf, ninf => nan
  | inf, fin b => if b < 0 then ninf else inf
  | ninf, fin b => if b < 0 then inf else ninf
  | fin _, inf => fin 0
  | fin _, ninf => fin 0
  | fin a, fin b =>
      if b = 0 then (if a = 0 then nan else if 0 < a then inf else ninf)
      else fin (a / b)

/-- `abs` from `<cmath>`. -/
def abs : FP → FP
  | fin a => fin |a|
  | inf => inf
  | ninf => inf
  | nan => nan

/-- `pow (x, 2)` from `<cmath>`. -/
def pow2 (a : FP) : FP := a.mul a

/-- `sqrt` from `<cmath>`; the square root of a nonnegative finite value is
delegated to the parameter `fsq` (see the header comment). -/
def fsqrt (fsq : ℚ → ℚ) : FP → FP
  | fin a => if a < 0 then nan else fin (fsq a)
  | inf => inf
  | ninf => nan
  | nan => nan

/-- The insertion step of the ascending `std::sort` model (the comparator
is `operator<` on doubles). -/
def insert (a : FP) : List FP → List FP
  | [] => [a]
  | b :: l => if lt a b then a :: b :: l else b :: insert a l

/-- Ascending sort of a value list, modelling `std::sort` at line 137 of
`smoothmedian.cpp` (for comparable, i.e. `nan`-free, data any comparison
sort produces this unique ascending arrangement). -/
def sortList : List FP → List FP
  | [] => []
  | a :: l => insert a (sortList l)

end FP

/-! ## Embedding of `src/smoothmedian.cpp` -/

/-- Errors raised through `mexErrMsgTxt`. -/
inductive SMErr where
  | invalidArgument
  | numericError
deriving DecidableEq, Repr

/-- The body of the pair loop, `smoothmedian.cpp` lines 173-184: accumulate
the first/second derivative contributions of the pair `(xi, xj)` unless
`D == 0`.  (The IEEE `D != 0` test is also true when `D` is `nan`.) -/
def pairTerm (fsq : ℚ → ℚ) (M xi xj : FP) (TU : FP × FP) : FP × FP :=
  let D := ((xi.sub M).pow2).add ((xj.sub M).pow2)
  let R := FP.fsqrt fsq D
  if D ≠ FP.fin 0 then
    (TU.1.add (((((FP.fin 2).mul M).sub xi).sub xj).div R),
     TU.2.add ((((xi.sub xj).pow2).mul R).div D.pow2))
  else TU

/-- The derivative accumulation pass, `smoothmedian.cpp` lines 166-185:
`T` and `U` start at zero; each outer index `j` is first checked by
`mxIsFinite` (line 170), aborting with `NumericError` on a `NaN`/`Inf`
value; then all pairs `(i, j)` with `i < j` contribute. -/
def derivTU (fsq : ℚ → ℚ) (xvec : List FP) (M : FP) : Except SMErr (FP × FP) :=
  (List.range xvec.length).foldlM
    (fun (TU : FP × FP) j =>
      let xj := xvec.getD j (FP.fin 0)
      if xj.isFinite = false then Except.error SMErr.numericError
      else Except.ok ((List.range j).foldl
        (fun acc i => pairTerm fsq M (xvec.getD i (FP.fin 0)) xj acc) TU))
    (FP.fin 0, FP.fin 0)

/-- The per-column working state of the Newton-Bisection loop: estimate,
bracket, range, tolerance, whether a `break` has fired (`done`), whether
the convergence warning has been printed (`warned`), and the number of
derivative passes executed (`passes`). -/
structure SolveState where
  M : FP
  a : FP
  b : FP
  range : FP
  Tol : FP
  done : Bool
  warned : Bool
  passes : ℕ
deriving DecidableEq, Repr

/-- One iteration of the loop at `smoothmedian.cpp` lines 157-218, with
iteration index `iter` (`Iter` in the source; `MaxIter = 19`):
break when `range <= Tol`; otherwise run the derivative pass, compute the
Newton step `T / U`, break when `|step| < Tol`, otherwise narrow the
bracket, take the Newton step if strictly inside the bracket and the
bisection step otherwise, and print the convergence warning when
`Iter == MaxIter`.  A fired break latches `done`. -/
def solveStep (fsq : ℚ → ℚ) (xvec : List FP) (iter : ℕ) (s : SolveState) :
    Except SMErr SolveState :=
  if s.done then Except.ok s
  else if FP.le s.range s.Tol then Except.ok { s with done := true }
  else
    match derivTU fsq xvec s.M with
    | Except.error e => Except.error e
    | Except.ok TU =>
      let step := TU.1.div TU.2
      if FP.lt step.abs s.Tol then Except.ok { s with done := true, passes := s.passes + 1 }
      else
        let a' := if FP.lt step (FP.fin 0) then s.M else s.a
        let b' := if FP.lt step (FP.fin 0) then s.b
                  else if FP.lt (FP.fin 0) step then s.M else s.b
        let range' := b'.sub a'
        let nwt := s.M.sub step
        let M' := if FP.lt a' nwt && FP.lt nwt b' then nwt
                  else (FP.fin (1/2)).mul (a'.add b')
        Except.ok { M := M', a := a', b := b', range := range', Tol := s.Tol,
                    done := false, warned := s.warned || decide (iter = 19),
                    passes := s.passes + 1 }

/-- Run the first `k` loop iterations (iteration indices `0, …, k-1`). -/
def runSteps (fsq : ℚ → ℚ) (xvec : List FP) : ℕ → SolveState → Except SMErr SolveState
  | 0, s => Except.ok s
  | k + 1, s =>
      match runSteps fsq xvec k s with
      | Except.error e => Except.error e
      | Except.ok s' => solveStep fsq xvec k s'

/-- The ordinary-median seed, `smoothmedian.cpp` lines 140-144, on the
sorted vector: middle element for odd length (`int (0.5 * m)` truncates to
`m / 2`), mean of the two middle elements for even length. -/
def ordinaryMedian (xvec : List FP) : FP :=
  let mi := xvec.length / 2
  if xvec.length % 2 = 0 then
    ((xvec.getD mi (FP.fin 0)).add (xvec.getD (mi - 1) (FP.fin 0))).mul (FP.fin (1/2))
  else xvec.getD mi (FP.fin 0)

/-- The state entering the iteration loop for one column
(`smoothmedian.cpp` lines 131-157): sorted copy, ordinary-median seed,
bracket `[xvec[0], xvec[m-1]]`, `range = b - a`, and the default tolerance
`range * 1e-4` when no `Tol` argument was supplied. -/
def initState (tolOpt : Option FP) (xvec0 : List FP) : SolveState :=
  let xvec := FP.sortList xvec0
  let M0 := ordinaryMedian xvec
  let a0 := xvec.getD 0 (FP.fin 0)
  let b0 := xvec.getD (xvec.length - 1) (FP.fin 0)
  let range0 := b0.sub a0
  let Tol := match tolOpt with
    | some t => t
    | none => range0.mul (FP.fin (1/10000))
  ⟨M0, a0, b0, range0, Tol, false, false, 0⟩

/-- Process one column/row: 20 loop iterations (`Iter = 0, …, MaxIter`
with `MaxIter = 19`) from the initial state; the result is the final
estimate together with the warning flag and the number of derivative
passes. -/
def solveColumn (fsq : ℚ → ℚ) (tolOpt : Option FP) (xvec0 : List FP) :
    Except SMErr (FP × Bool × ℕ) :=
  (runSteps fsq (FP.sortList xvec0) 20 (initState tolOpt xvec0)).map
    (fun s => (s.M, s.warned, s.passes))

/-- Column/row extraction, `smoothmedian.cpp` lines 131-136, from the
column-major buffer `x` of a `sz0 × sz1` array: slot `k` is
`[x[k*m + j]]ⱼ` for `dim = 1` and `[x[j*n + k]]ⱼ` for `dim = 2`. -/
def extractVec (x : ℕ → FP) (dim : ℤ) (m n k : ℕ) : List FP :=
  (List.range m).map fun j => if dim = 1 then x (k * m + j) else x (j * n + k)

/-- The `mexFunction` entry point of `smoothmedian.cpp`.  `x` is the
column-major data buffer with dimensions `sz0 × sz1`; `dimArg` models the
optional second argument after its conversion to an integer (`dim = 1`
when absent, lines 89-93); `tolOpt` the optional third argument.  `dim` is
validated first (lines 94-96), then forced to `2` when the leading
dimension is singleton (lines 105-107); each of the `n` slots of length
`m` is processed independently, and a `mexErrMsgTxt` abort in any slot
aborts the whole call. -/
def solve (fsq : ℚ → ℚ) (sz0 sz1 : ℕ) (x : ℕ → FP) (dimArg : Option ℤ)
    (tolOpt : Option FP) : Except SMErr (List (FP × Bool × ℕ)) :=
  let dim0 : ℤ := dimArg.getD 1
  if dim0 ≠ 1 ∧ dim0 ≠ 2 then Except.error SMErr.invalidArgument
  else
    let dim : ℤ := if sz0 = 1 then 2 else dim0
    let m : ℕ := if dim = 1 then sz0 else sz1
    let n : ℕ := if dim = 1 then sz1 else sz0
    (List.range n).mapM fun k => solveColumn fsq tolOpt (extractVec x dim m n k)

/-- Fixed finite-square-root parameter used by concrete witnesses. -/
def fsq0 : ℚ → ℚ := fun _ => 0

/-- The single-element buffer `[5]` of the spec's median-boundary example. -/
def buf5 : ℕ → FP := fun _ => FP.fin 5

/-- A `1 × 3` buffer `[1, 2, Inf]` containing an infinite value. -/
def bufInf : ℕ → FP := fun k =>
  if k = 0 then FP.fin 1 else if k = 1 then FP.fin 2 else FP.inf

/-! ## List bookkeeping lemmas -/

lemma getD_set_self (l : List ℤ) (i : ℕ) (a : ℤ) (h : i < l.length) :
    (l.set i a).getD i 0 = a := by
  induction l generalizing i with
  | nil => simp at h
  | cons x t ih =>
    cases i with
    | zero => simp
    | succ i => simpa using ih i (by simpa using h)

lemma getD_set_ne (l : List ℤ) (i j : ℕ) (a : ℤ) (h : i ≠ j) :
    (l.set i a).getD j 0 = l.getD j 0 := by
  induction l generalizing i j with
  | nil => simp
  | cons x t ih =>
    cases i with
    | zero =>
      cases j with
      | zero => exact absurd rfl h
      | succ j => simp
    | succ i =>
      cases j with
      | zero => simp
      | succ j => simpa using ih i j (by omega)

lemma sum_set (l : List ℤ) (i : ℕ) (a : ℤ) (h : i < l.length) :
    (l.set i a).sum = l.sum - l.getD i 0 + a := by
  induction l generalizing i with
  | nil => simp at h
  | cons x t ih =>
    cases i with
    | zero => simp [List.sum_cons]; ring
    | succ i =>
      simp only [List.set, List.sum_cons, List.getD_cons_succ]
      rw [ih i (by simpa using h)]; ring

lemma getD_mem_of_lt (l : List ℤ) (i : ℕ) (h : i < l.length) : l.getD i 0 ∈ l := by
  induction l generalizing i with
  | nil => simp at h
  | cons x t ih =>
    cases i with
    | zero => simp
    | succ i => exact List.mem_cons_of_mem _ (ih i (by simpa using h))

lemma getD_le_sum (l : List ℤ) (hpos : ∀ x ∈ l, 0 ≤ x) (i : ℕ) :
    l.getD i 0 ≤ l.sum := by
  induction l generalizing i with
  | nil => simp [List.getD]
  | cons x t ih =>
    have hx : 0 ≤ x := hpos x (List.mem_cons_self x t)
    have ht : ∀ y ∈ t, 0 ≤ y := fun y hy => hpos y (List.mem_cons_of_mem _ hy)
    have hts : 0 ≤ t.sum := List.sum_nonneg ht
    cases i with
    | zero => simp [List.sum_cons]; linarith
    | succ i =>
      have := ih ht i
      simp only [List.getD_cons_succ, List.sum_cons]
      linarith

lemma nonneg_set (l : List ℤ) (i : ℕ) (a : ℤ) (ha : 0 ≤ a)
    (h : ∀ x ∈ l, 0 ≤ x) : ∀ x ∈ l.set i a, 0 ≤ x := by
  induction l generalizing i with
  | nil => simp
  | cons x t ih =>
    cases i with
    | zero =>
      intro y hy
      rcases List.mem_cons.mp hy with h1 | h1
      · exact h1 ▸ ha
      · exact h y (List.mem_cons_of_mem _ h1)
    | succ i =>
      intro y hy
      rcases List.mem_cons.mp hy with h1 | h1
      · exact h1 ▸ h x (List.mem_cons_self x t)
      · exact ih i (fun z hz => h z (List.mem_cons_of_mem _ hz)) y h1

lemma eq_of_getD (l1 l2 : List ℤ) (hlen : l1.length = l2.length)
    (h : ∀ j, j < l1.length → l1.getD j 0 = l2.getD j 0) : l1 = l2 := by
  induction l1 generalizing l2 with
  | nil => cases l2 with
    | nil => rfl
    | cons y t2 => simp at hlen
  | cons x t1 ih =>
    cases l2 with
    | nil => simp at hlen
    | cons y t2 =>
      have hxy : x = y := h 0 (by simp)
      have : t1 = t2 := by
        refine ih t2 (by simpa using hlen) ?_
        intro j hj
        simpa using h (j + 1) (by simpa using Nat.succ_lt_succ hj)
      rw [hxy, this]

lemma sum_zero_all_zero (l : List ℤ) (hpos : ∀ x ∈ l, 0 ≤ x) (hsum : l.sum = 0) :
    ∀ x ∈ l, x = 0 := by
  induction l with
  | nil => simp
  | cons x t ih =>
    have hx : 0 ≤ x := hpos x (List.mem_cons_self x t)
    have ht : ∀ y ∈ t, 0 ≤ y := fun y hy => hpos y (List.mem_cons_of_mem _ hy)
    have hts : 0 ≤ t.sum := List.sum_nonneg ht
    rw [List.sum_cons] at hsum
    have hx0 : x = 0 := by linarith
    have hts0 : t.sum = 0 := by linarith
    intro y hy
    rcases List.mem_cons.mp hy with h1 | h1
    · exact h1 ▸ hx0
    · exact ih ht hts0 y h1

/-! ## Safety and balance of the `boot.cc` sampler -/

/-- When `k` lands inside the cumulative total of the (nonnegative) active
counts, the walk breaks at an index `j < n` whose counter is positive. -/
lemma cumFind_some (c : List ℤ) (k : ℤ) :
    ∀ d : ℤ, (∀ x ∈ c, 0 ≤ x) → d ≤ k → k < d + c.sum →
    ∃ j, cumFind k d c = some j ∧ j < c.length ∧ 0 < c.getD j 0 := by
  induction c with
  | nil =>
    intro d _ hlow hhigh
    rw [List.sum_nil] at hhigh
    omega
  | cons x t ih =>
    intro d hpos hlow hhigh
    by_cases hkx : k < d + x
    · exact ⟨0, by simp [cumFind, hkx], by simp, by simp; omega⟩
    · push_neg at hkx
      obtain ⟨j, hj1, hj2, hj3⟩ :=
        ih (d + x) (fun y hy => hpos y (List.mem_cons_of_mem _ hy)) hkx
          (by rw [List.sum_cons] at hhigh; linarith)
      refine ⟨j + 1, ?_, by simpa using hj2, by simpa using hj3⟩
      simp [cumFind, not_lt.mpr hkx, hj1]

/-- The scaled-and-truncated uniform draw lies in `[0, x)`. -/
lemma floor_scale_bounds (q : ℚ) (x : ℤ) (hq0 : 0 ≤ q) (hq1 : q < 1) (hx : 0 < x) :
    0 ≤ ⌊q * (x : ℚ)⌋ ∧ ⌊q * (x : ℚ)⌋ < x := by
  constructor
  · exact Int.floor_nonneg.mpr (mul_nonneg hq0 (by exact_mod_cast hx.le))
  · refine Int.floor_lt.mpr ?_
    calc q * (x : ℚ) < 1 * (x : ℚ) := by
          apply mul_lt_mul_of_pos_right hq1
          exact_mod_cast hx
    _ = (x : ℚ) := one_mul _

/-- A single draw, at any state where the counters are nonnegative and sum
to the remaining positive total `N`, breaks at an index `j < n` with a
positive counter, emits `j + 1`, decrements `c[j]` and `N`, and — in
unbiased mode with the guard `c[r] ≠ N` — never selects the excluded
index `r`. -/
lemma bootDraw_spec (u : Bool) (r : ℕ) (q : ℚ) (c : List ℤ) (N : ℤ)
    (hr : r < c.length) (hpos : ∀ x ∈ c, 0 ≤ x) (hsum : c.sum = N) (hN : 0 < N)
    (hq0 : 0 ≤ q) (hq1 : q < 1) :
    ∃ j, j < c.length ∧ 0 < c.getD j 0 ∧
      bootDraw u r q c N = ⟨c.set j (c.getD j 0 - 1), N - 1, (j : ℤ) + 1⟩ ∧
      (u = true → c.getD r 0 ≠ N → j ≠ r) := by
  by_cases hloo : (u && decide (c.getD r 0 ≠ N)) = true
  · -- leave-one-out draw
    have hm0 : 0 ≤ c.getD r 0 := hpos _ (getD_mem_of_lt c r hr)
    have hmsum : c.getD r 0 ≤ c.sum := getD_le_sum c hpos r
    have hmne : c.getD r 0 ≠ N := by
      have h2 := hloo
      simp only [Bool.and_eq_true, decide_eq_true_eq] at h2
      exact h2.2
    have hmN : c.getD r 0 < N := lt_of_le_of_ne (hsum ▸ hmsum) hmne
    have hNm : 0 < N - c.getD r 0 := by omega
    obtain ⟨hk0, hk1⟩ := floor_scale_bounds q (N - c.getD r 0) hq0 hq1 hNm
    have hpos1 : ∀ x ∈ c.set r 0, 0 ≤ x := nonneg_set c r 0 le_rfl hpos
    have hsum1 : (c.set r 0).sum = N - c.getD r 0 := by
      rw [sum_set c r 0 hr, hsum]; ring
    obtain ⟨j, hj1, hj2, hj3⟩ :=
      cumFind_some (c.set r 0) (⌊q * ((N - c.getD r 0 : ℤ) : ℚ)⌋) 0 hpos1 hk0
        (by rw [hsum1]; omega)
    rw [List.length_set] at hj2
    have hjr : j ≠ r := by
      intro hjr
      rw [hjr, getD_set_self c r 0 hr] at hj3
      exact lt_irrefl 0 hj3
    have hcj : (c.set r 0).getD j 0 = c.getD j 0 := getD_set_ne c r j 0 hjr.symm
    refine ⟨j, hj2, hcj ▸ hj3, ?_, fun _ _ => hjr⟩
    have heq : (((c.set r 0).set j ((c.set r 0).getD j 0 - 1)).set r (c.getD r 0))
        = c.set j (c.getD j 0 - 1) := by
      apply eq_of_getD
      · simp
      · intro j' hj'
        simp only [List.length_set] at hj'
        by_cases h1 : j' = r
        · subst h1
          rw [getD_set_self _ j' _ (by simpa using hj'),
            getD_set_ne c j j' _ (by omega)]
        · rw [getD_set_ne _ r j' _ (by omega)]
          by_cases h2 : j' = j
          · subst h2
            rw [getD_set_self _ j' _ (by simpa using hj'),
              getD_set_self _ j' _ (by simpa using hj'), hcj]
          · rw [getD_set_ne _ j j' _ (by omega),
              getD_set_ne _ j j' _ (by omega),
              getD_set_ne _ r j' _ (by omega)]
    rw [bootDraw, if_pos hloo, hj1]
    simp only [heq]
  · -- ordinary draw
    obtain ⟨hk0, hk1⟩ := floor_scale_bounds q N hq0 hq1 hN
    obtain ⟨j, hj1, hj2, hj3⟩ :=
      cumFind_some c (⌊q * (N : ℚ)⌋) 0 hpos hk0 (by rw [hsum]; omega)
    refine ⟨j, hj2, hj3, ?_, ?_⟩
    · rw [bootDraw, if_neg hloo, hj1]
    · intro hu hne
      refine absurd ?_ hloo
      simp only [hu, Bool.true_and, decide_eq_true_eq]
      exact hne

/-- Invariant of the row loop: starting from counters of length `n` that
are nonnegative and sum to `N ≥ i`, running `i` draws emits `i` entries in
`[1, n]`, consumes `i` from `N`, keeps the counters nonnegative, and each
counter drops by exactly the number of times its (1-based) index was
emitted. -/
lemma bootRows_spec (u : Bool) (r : ℕ) (q : ℕ → ℚ) (hq : ∀ t, 0 ≤ q t ∧ q t < 1)
    (n : ℕ) (hr : r < n) :
    ∀ (i t0 : ℕ) (c : List ℤ) (N : ℤ), c.length = n → (∀ x ∈ c, 0 ≤ x) →
      c.sum = N → (i : ℤ) ≤ N →
      (bootRows u r q t0 i c N).col.length = i ∧
      (bootRows u r q t0 i c N).N = N - i ∧
      (bootRows u r q t0 i c N).c.length = n ∧
      (∀ x ∈ (bootRows u r q t0 i c N).c, 0 ≤ x) ∧
      (bootRows u r q t0 i c N).c.sum = N - i ∧
      (∀ e ∈ (bootRows u r q t0 i c N).col, 1 ≤ e ∧ e ≤ (n : ℤ)) ∧
      (∀ j', j' < n →
        (bootRows u r q t0 i c N).c.getD j' 0 =
          c.getD j' 0 - ((bootRows u r q t0 i c N).col.count ((j' : ℤ) + 1) : ℤ)) := by
  intro i
  induction i with
  | zero =>
    intro t0 c N hlen hpos hsum _
    refine ⟨rfl, by simp [bootRows], hlen, hpos, by simp [bootRows, hsum],
      by simp [bootRows], ?_⟩
    intro j' _
    simp [bootRows]
  | succ i ih =>
    intro t0 c N hlen hpos hsum hiN
    have hN : 0 < N := by push_cast at hiN; omega
    obtain ⟨j, hj, hcj, hdraw, _⟩ :=
      bootDraw_spec u r (q t0) c N (hlen ▸ hr) hpos hsum hN (hq t0).1 (hq t0).2
    have hjn : j < n := hlen ▸ hj
    have hlen' : (c.set j (c.getD j 0 - 1)).length = n := by
      rw [List.length_set]; exact hlen
    have hpos' : ∀ x ∈ c.set j (c.getD j 0 - 1), 0 ≤ x :=
      nonneg_set _ _ _ (by omega) hpos
    have hsum' : (c.set j (c.getD j 0 - 1)).sum = N - 1 := by
      rw [sum_set c j _ hj, hsum]; ring
    have hiN' : (i : ℤ) ≤ N - 1 := by push_cast at hiN ⊢; omega
    obtain ⟨ih1, ih2, ih3, ih4, ih5, ih6, ih7⟩ :=
      ih (t0 + 1) (c.set j (c.getD j 0 - 1)) (N - 1) hlen' hpos' hsum' hiN'
    simp only [bootRows, hdraw]
    refine ⟨by simpa using ih1, by rw [ih2]; push_cast; ring, ih3, ih4,
      by rw [ih5]; push_cast; ring, ?_, ?_⟩
    · intro e he
      rcases List.mem_cons.mp he with h1 | h1
      · constructor <;> [omega; skip]
        rw [h1]
        have : (j : ℤ) < (n : ℤ) := by exact_mod_cast hjn
        omega
      · exact ih6 e h1
    · intro j' hj'
      have hcount : (((j : ℤ) + 1) :: (bootRows u r q (t0 + 1) i
          (c.set j (c.getD j 0 - 1)) (N - 1)).col).count ((j' : ℤ) + 1)
          = (bootRows u r q (t0 + 1) i (c.set j (c.getD j 0 - 1)) (N - 1)).col.count
              ((j' : ℤ) + 1) + if ((j' : ℤ) + 1) = ((j : ℤ) + 1) then 1 else 0 := by
        simp only [List.count_cons, beq_iff_eq]
        rcases eq_or_ne j' j with h | h
        · simp [h]
        · simp [h, Ne.symm h]
      rw [ih7 j' hj', hcount]
      by_cases hcase : j' = j
      · subst hcase
        rw [getD_set_self c j' _ (hlen ▸ hj')]
        simp
        omega
      · rw [getD_set_ne c j j' _ (fun h => hcase h.symm)]
        have : ¬ ((j' : ℤ) + 1) = ((j : ℤ) + 1) := by
          intro h
          exact hcase (by exact_mod_cast (by omega : (j' : ℤ) = (j : ℤ)))
        simp [this]

/-- Invariant of the column loop: with counters summing to `N ≥ n·nb`,
running `nb` columns produces `nb` columns of length `n` with entries in
`[1, n]`, consumes `n` from `N` per column, and each counter drops by the
total number of times its index was emitted across all columns. -/
lemma bootCols_spec (u : Bool) (n : ℕ) (q : ℕ → ℚ) (hq : ∀ t, 0 ≤ q t ∧ q t < 1)
    (hn : 0 < n) :
    ∀ (nb b : ℕ) (c : List ℤ) (N : ℤ), c.length = n → (∀ x ∈ c, 0 ≤ x) →
      c.sum = N → (n : ℤ) * nb ≤ N →
      (bootCols u n q nb b c N).cols.length = nb ∧
      (∀ col ∈ (bootCols u n q nb b c N).cols, col.length = n) ∧
      (bootCols u n q nb b c N).N = N - n * nb ∧
      (bootCols u n q nb b c N).c.length = n ∧
      (∀ x ∈ (bootCols u n q nb b c N).c, 0 ≤ x) ∧
      (bootCols u n q nb b c N).c.sum = N - n * nb ∧
      (∀ col ∈ (bootCols u n q nb b c N).cols, ∀ e ∈ col, 1 ≤ e ∧ e ≤ (n : ℤ)) ∧
      (∀ j', j' < n →
        (bootCols u n q nb b c N).c.getD j' 0 =
          c.getD j' 0 - (countAll ((j' : ℤ) + 1) (bootCols u n q nb b c N).cols : ℤ)) := by
  intro nb
  induction nb with
  | zero =>
    intro b c N hlen hpos hsum _
    refine ⟨rfl, by simp [bootCols], by simp [bootCols], hlen, hpos,
      by simp [bootCols, hsum], by simp [bootCols], ?_⟩
    intro j' _
    simp [bootCols, countAll]
  | succ nb ih =>
    intro b c N hlen hpos hsum hNn
    have hnN : (n : ℤ) ≤ N := by
      have h0 : (0 : ℤ) ≤ (n : ℤ) * nb := by positivity
      push_cast at hNn ⊢
      nlinarith
    obtain ⟨r1, r2, r3, r4, r5, r6, r7⟩ :=
      bootRows_spec u (b % n) q hq n (Nat.mod_lt b hn) n (b * n) c N hlen hpos hsum hnN
    have hNn' : (n : ℤ) * nb ≤ N - n := by push_cast at hNn ⊢; nlinarith
    obtain ⟨ic1, ic2, ic3, ic4, ic5, ic6, ic7, ic8⟩ :=
      ih (b + 1) (bootRows u (b % n) q (b * n) n c N).c
        ((bootRows u (b % n) q (b * n) n c N).N)
        r3 r4 (r2 ▸ r5) (by rw [r2]; exact hNn')
    simp only [bootCols]
    refine ⟨by simpa using ic1, ?_, ?_, ic4, ic5, ?_, ?_, ?_⟩
    · intro col hcol
      rcases List.mem_cons.mp hcol with h1 | h1
      · exact h1 ▸ r1
      · exact ic2 col h1
    · rw [ic3, r2]; push_cast; ring
    · rw [ic6, r2]; push_cast; ring
    · intro col hcol
      rcases List.mem_cons.mp hcol with h1 | h1
      · exact fun e he => r6 e (h1 ▸ he)
      · exact ic7 col h1
    · intro j' hj'
      have hca : countAll ((j' : ℤ) + 1)
          ((bootRows u (b % n) q (b * n) n c N).col ::
            (bootCols u n q nb (b + 1) (bootRows u (b % n) q (b * n) n c N).c
              (bootRows u (b % n) q (b * n) n c N).N).cols)
          = (bootRows u (b % n) q (b * n) n c N).col.count ((j' : ℤ) + 1) +
            countAll ((j' : ℤ) + 1)
              (bootCols u n q nb (b + 1) (bootRows u (b % n) q (b * n) n c N).c
                (bootRows u (b % n) q (b * n) n c N).N).cols := by
        simp [countAll]
      rw [ic8 j' hj', r7 j' hj', hca]
      push_cast
      ring

lemma getD_replicate (x : ℤ) : ∀ n j, j < n → (List.replicate n x).getD j 0 = x := by
  intro n
  induction n with
  | zero => intro j hj; omega
  | succ n ih =>
    intro j hj
    cases j with
    | zero => simp [List.replicate]
    | succ j => simpa [List.replicate] using ih j (by omega)

/-- Appending one more draw on the right: the state after `i + 1` draws is
one `bootDraw` applied to the state after `i` draws. -/
lemma bootRows_succ_right (u : Bool) (r : ℕ) (q : ℕ → ℚ) :
    ∀ (i t0 : ℕ) (c : List ℤ) (N : ℤ),
      (bootRows u r q t0 (i + 1) c N).c =
        (bootDraw u r (q (t0 + i)) (bootRows u r q t0 i c N).c
          (bootRows u r q t0 i c N).N).c ∧
      (bootRows u r q t0 (i + 1) c N).N =
        (bootDraw u r (q (t0 + i)) (bootRows u r q t0 i c N).c
          (bootRows u r q t0 i c N).N).N := by
  intro i
  induction i with
  | zero => intro t0 c N; simp [bootRows]
  | succ i ih =>
    intro t0 c N
    obtain ⟨h1, h2⟩ := ih (t0 + 1) (bootDraw u r (q t0) c N).c (bootDraw u r (q t0) c N).N
    constructor
    · show (bootRows u r q (t0 + 1) (i + 1) (bootDraw u r (q t0) c N).c
        (bootDraw u r (q t0) c N).N).c = _
      rw [h1]
      have harg : t0 + 1 + i = t0 + (i + 1) := by omega
      rw [harg]
      rfl
    · show (bootRows u r q (t0 + 1) (i + 1) (bootDraw u r (q t0) c N).c
        (bootDraw u r (q t0) c N).N).N = _
      rw [h2]
      have harg : t0 + 1 + i = t0 + (i + 1) := by omega
      rw [harg]
      rfl

/-- Appending one more column on the right: the counter state after
`nb + 1` columns is one full row loop applied to the state after `nb`
columns, with the leave-one-out index and draw offset of column `b + nb`. -/
lemma bootCols_succ_right (u : Bool) (n : ℕ) (q : ℕ → ℚ) :
    ∀ (nb b : ℕ) (c : List ℤ) (N : ℤ),
      (bootCols u n q (nb + 1) b c N).c =
        (bootRows u ((b + nb) % n) q ((b + nb) * n) n (bootCols u n q nb b c N).c
          (bootCols u n q nb b c N).N).c ∧
      (bootCols u n q (nb + 1) b c N).N =
        (bootRows u ((b + nb) % n) q ((b + nb) * n) n (bootCols u n q nb b c N).c
          (bootCols u n q nb b c N).N).N := by
  intro nb
  induction nb with
  | zero => intro b c N; simp [bootCols]
  | succ nb ih =>
    intro b c N
    obtain ⟨h1, h2⟩ := ih (b + 1)
      (bootRows u (b % n) q (b * n) n c N).c (bootRows u (b % n) q (b * n) n c N).N
    have harg : b + 1 + nb = b + (nb + 1) := by omega
    constructor
    · show (bootCols u n q (nb + 1) (b + 1) (bootRows u (b % n) q (b * n) n c N).c
        (bootRows u (b % n) q (b * n) n c N).N).c = _
      rw [h1, harg]
      rfl
    · show (bootCols u n q (nb + 1) (b + 1) (bootRows u (b % n) q (b * n) n c N).c
        (bootRows u (b % n) q (b * n) n c N).N).N = _
      rw [h2, harg]
      rfl

/-! ## Claim theorems for `boot.cc` -/

/-- C1: for every `n > 0`, `nboot > 0`, either flag value, and every
sequence of uniform draws in `[0,1)`, the generated matrix has `nboot`
columns of length `n` (shape `n × nboot`), every entry lies in `[1, n]`,
and every integer `v ∈ [1, n]` occurs exactly `nboot` times across the
whole matrix. -/
theorem boot_balance (n nboot : ℕ) (u : Bool) (q : ℕ → ℚ)
    (hn : 0 < n) (hb : 0 < nboot) (hq : ∀ t, 0 ≤ q t ∧ q t < 1) :
    (boot n nboot u q).length = nboot ∧
    (∀ col ∈ boot n nboot u q, col.length = n) ∧
    (∀ col ∈ boot n nboot u q, ∀ e ∈ col, 1 ≤ e ∧ e ≤ (n : ℤ)) ∧
    (∀ v : ℤ, 1 ≤ v → v ≤ (n : ℤ) → countAll v (boot n nboot u q) = nboot) := by
  have hlen : (List.replicate n (nboot : ℤ)).length = n := List.length_replicate n _
  have hpos : ∀ x ∈ List.replicate n (nboot : ℤ), 0 ≤ x := by
    intro x hx
    rw [List.eq_of_mem_replicate hx]
    positivity
  have hsum : (List.replicate n (nboot : ℤ)).sum = (n : ℤ) * nboot := by
    rw [List.sum_replicate, nsmul_eq_mul]
  obtain ⟨c1, c2, c3, c4, c5, c6, c7, c8⟩ :=
    bootCols_spec u n q hq hn nboot 0 (List.replicate n (nboot : ℤ)) ((n : ℤ) * nboot)
      hlen hpos hsum (le_of_eq rfl)
  refine ⟨c1, c2, c7, ?_⟩
  intro v hv1 hv2
  show countAll v (bootCols u n q nboot 0 (List.replicate n (nboot : ℤ))
    ((n : ℤ) * nboot)).cols = nboot
  have hvto : (((v - 1).toNat : ℤ)) = v - 1 := Int.toNat_of_nonneg (by omega)
  have hjn : (v - 1).toNat < n := by omega
  have hzero : (bootCols u n q nboot 0 (List.replicate n (nboot : ℤ))
      ((n : ℤ) * nboot)).c.getD (v - 1).toNat 0 = 0 := by
    apply sum_zero_all_zero _ c5 (by rw [c6]; ring)
    exact getD_mem_of_lt _ _ (by rw [c4]; exact hjn)
  have hrel := c8 (v - 1).toNat hjn
  rw [hzero, getD_replicate (nboot : ℤ) n (v - 1).toNat hjn] at hrel
  have hv : ((v - 1).toNat : ℤ) + 1 = v := by omega
  rw [hv] at hrel
  omega

/-- C1 witness: `boot (2, 3, false)` with the all-zero draw stream has
three columns of length two, and `1` and `2` each occur three times. -/
theorem boot_balance_witness :
    0 < 2 ∧ 0 < 3 ∧
    (boot 2 3 false zeroDraws).length = 3 ∧
    countAll 1 (boot 2 3 false zeroDraws) = 3 ∧
    countAll 2 (boot 2 3 false zeroDraws) = 3 := by
  have h := boot_balance 2 3 false zeroDraws (by decide) (by decide)
    (fun t => ⟨le_refl 0, zero_lt_one⟩)
  exact ⟨by decide, by decide, h.1,
    h.2.2.2 1 (by decide) (by decide), h.2.2.2 2 (by decide) (by decide)⟩

/-- C2 counterexample: `generate (0, 5, false)` does not raise any error —
the call returns normally with a `0 × 5` matrix (five empty columns).  The
source validates only the argument count, never the positivity of `n` or
`nboot`. -/
theorem boot_no_validation_counterexample :
    bootCall 3 0 5 false zeroDraws = Except.ok [[], [], [], [], []] := by
  rfl

/-- C2 amended: `generate` performs no positivity validation.  With
`n = 0` or `nboot = 0` it returns an empty matrix normally, for every
draw stream; the only `InvalidArgument`-style failure of the entry point
is a wrong argument count. -/
theorem boot_no_validation (q : ℕ → ℚ) :
    bootCall 3 0 5 false q = Except.ok [[], [], [], [], []] ∧
    bootCall 3 5 0 false q = Except.ok [] ∧
    (∀ nargs : ℕ, nargs ≠ 3 → bootCall nargs 0 5 false q = Except.error BootErr.usage) := by
  refine ⟨rfl, rfl, ?_⟩
  intro nargs hne
  rw [bootCall, if_pos hne]

/-- C2 amended witness: instantiation at the zero stream and `nargs = 2`. -/
theorem boot_no_validation_witness :
    bootCall 3 0 5 false zeroDraws = Except.ok [[], [], [], [], []] ∧
    (2 : ℕ) ≠ 3 ∧ bootCall 2 0 5 false zeroDraws = Except.error BootErr.usage := by
  have h := boot_no_validation zeroDraws
  exact ⟨h.1, by decide, h.2.2 2 (by decide)⟩

/-- C8: in unbiased mode, at any draw where the guard `c[r] ≠ N` holds
(with nonnegative counters summing to `N`), the scaled draw `k` lies in
`[0, N - c[r])`, the walk runs over the counters with `c[r]` temporarily
zeroed and breaks at some `j ≠ r`, the emitted index is never `r + 1`, and
`c[r]` is restored to its saved value by the end of the draw. -/
theorem boot_loo_draw (r : ℕ) (q : ℚ) (c : List ℤ) (N : ℤ)
    (hr : r < c.length) (hpos : ∀ x ∈ c, 0 ≤ x) (hsum : c.sum = N)
    (hq0 : 0 ≤ q) (hq1 : q < 1) (hguard : c.getD r 0 ≠ N) :
    (0 ≤ ⌊q * ((N - c.getD r 0 : ℤ) : ℚ)⌋ ∧
      ⌊q * ((N - c.getD r 0 : ℤ) : ℚ)⌋ < N - c.getD r 0) ∧
    (∃ j, cumFind (⌊q * ((N - c.getD r 0 : ℤ) : ℚ)⌋) 0 (c.set r 0) = some j ∧
      j < c.length ∧ j ≠ r ∧ (bootDraw true r q c N).idx = (j : ℤ) + 1) ∧
    (bootDraw true r q c N).idx ≠ (r : ℤ) + 1 ∧
    (bootDraw true r q c N).c.getD r 0 = c.getD r 0 := by
  have hm0 : 0 ≤ c.getD r 0 := hpos _ (getD_mem_of_lt c r hr)
  have hmsum : c.getD r 0 ≤ c.sum := getD_le_sum c hpos r
  have hmN : c.getD r 0 < N := lt_of_le_of_ne (hsum ▸ hmsum) hguard
  have hNm : 0 < N - c.getD r 0 := by omega
  obtain ⟨hk0, hk1⟩ := floor_scale_bounds q (N - c.getD r 0) hq0 hq1 hNm
  have hpos1 : ∀ x ∈ c.set r 0, 0 ≤ x := nonneg_set c r 0 le_rfl hpos
  have hsum1 : (c.set r 0).sum = N - c.getD r 0 := by
    rw [sum_set c r 0 hr, hsum]; ring
  obtain ⟨j, hj1, hj2, hj3⟩ :=
    cumFind_some (c.set r 0) (⌊q * ((N - c.getD r 0 : ℤ) : ℚ)⌋) 0 hpos1 hk0
      (by rw [hsum1]; omega)
  rw [List.length_set] at hj2
  have hjr : j ≠ r := by
    intro hjr
    rw [hjr, getD_set_self c r 0 hr] at hj3
    exact lt_irrefl 0 hj3
  have hloo : (true && decide (c.getD r 0 ≠ N)) = true := by
    simp only [Bool.true_and, decide_eq_true_eq]
    exact hguard
  have hdraw : bootDraw true r q c N =
      ⟨(((c.set r 0).set j ((c.set r 0).getD j 0 - 1)).set r (c.getD r 0)),
        N - 1, (j : ℤ) + 1⟩ := by
    rw [bootDraw, if_pos hloo, hj1]
  refine ⟨⟨hk0, hk1⟩, ⟨j, hj1, hj2, hjr, by rw [hdraw]⟩, ?_, ?_⟩
  · rw [hdraw]
    show ¬ ((j : ℤ) + 1 = (r : ℤ) + 1)
    intro h
    have hcast : (j : ℤ) = (r : ℤ) := by omega
    exact hjr (by exact_mod_cast hcast)
  · rw [hdraw]
    exact getD_set_self _ r _ (by simpa using hr)

/-- C8 witness: `c = [2, 2]`, `N = 4`, `r = 0`, `q = 0`: the guard holds,
the draw picks index `2 ≠ 1 = r + 1`, and `c[0]` is restored to `2`. -/
theorem boot_loo_draw_witness :
    (0 : ℕ) < ([2, 2] : List ℤ).length ∧
    ([2, 2] : List ℤ).sum = 4 ∧ (0 : ℚ) ≤ 0 ∧ (0 : ℚ) < 1 ∧
    ([2, 2] : List ℤ).getD 0 0 ≠ 4 ∧
    (bootDraw true 0 (0 : ℚ) [2, 2] 4).idx ≠ (0 : ℤ) + 1 ∧
    (bootDraw true 0 (0 : ℚ) [2, 2] 4).c.getD 0 0 = ([2, 2] : List ℤ).getD 0 0 := by
  have h := boot_loo_draw 0 0 [2, 2] 4 (by decide) (by decide) (by decide)
    (le_refl 0) zero_lt_one (by decide)
  exact ⟨by decide, by decide, le_refl 0, zero_lt_one, by decide, h.2.2.1, h.2.2.2⟩

/-- C9: with valid `n`, `nboot` and draws in `[0,1)`: every entry of the
generated matrix is assigned an index in `[1, n]` (the walk always breaks
before reading past the end of the counter array), the counters are
nonnegative at every intermediate state of the run, at every pre-draw
state the next draw's walk breaks at some `j < n`, and the intermediate
states do chain: each state advances by one `bootDraw`, and the state at
the start of column `b + 1` is the state after the `n` draws of column
`b`. -/
theorem boot_walk_safe (n nboot : ℕ) (u : Bool) (q : ℕ → ℚ)
    (hn : 0 < n) (hb : 0 < nboot) (hq : ∀ t, 0 ≤ q t ∧ q t < 1) :
    (∀ col ∈ boot n nboot u q, ∀ e ∈ col, 1 ≤ e ∧ e ≤ (n : ℤ)) ∧
    (∀ b i, b < nboot → i ≤ n → (bootStateAfter n nboot u q b i).1.length = n ∧
      ∀ x ∈ (bootStateAfter n nboot u q b i).1, 0 ≤ x) ∧
    (∀ b i, b < nboot → i < n → ∃ j, j < n ∧
      bootDraw u (b % n) (q (b * n + i)) (bootStateAfter n nboot u q b i).1
        (bootStateAfter n nboot u q b i).2 =
        ⟨(bootStateAfter n nboot u q b i).1.set j
            ((bootStateAfter n nboot u q b i).1.getD j 0 - 1),
          (bootStateAfter n nboot u q b i).2 - 1, (j : ℤ) + 1⟩) ∧
    (∀ b i, bootStateAfter n nboot u q b (i + 1) =
      ((bootDraw u (b % n) (q (b * n + i)) (bootStateAfter n nboot u q b i).1
          (bootStateAfter n nboot u q b i).2).c,
        (bootDraw u (b % n) (q (b * n + i)) (bootStateAfter n nboot u q b i).1
          (bootStateAfter n nboot u q b i).2).N)) ∧
    (∀ b, bootStateAfter n nboot u q (b + 1) 0 = bootStateAfter n nboot u q b n) := by
  have hlen : (List.replicate n (nboot : ℤ)).length = n := List.length_replicate n _
  have hposr : ∀ x ∈ List.replicate n (nboot : ℤ), 0 ≤ x := by
    intro x hx
    rw [List.eq_of_mem_replicate hx]
    positivity
  have hsumr : (List.replicate n (nboot : ℤ)).sum = (n : ℤ) * nboot := by
    rw [List.sum_replicate, nsmul_eq_mul]
  -- invariants at the state after `b` columns and `i` draws
  have hstate : ∀ b i, b < nboot → i ≤ n →
      (bootStateAfter n nboot u q b i).1.length = n ∧
      (∀ x ∈ (bootStateAfter n nboot u q b i).1, 0 ≤ x) ∧
      (bootStateAfter n nboot u q b i).1.sum = (bootStateAfter n nboot u q b i).2 ∧
      (n : ℤ) - i ≤ (bootStateAfter n nboot u q b i).2 := by
    intro b i hbn hin
    have hble : ((b : ℤ)) ≤ (nboot : ℤ) := by exact_mod_cast hbn.le
    have hnb : (n : ℤ) * b ≤ (n : ℤ) * nboot := by nlinarith [Int.ofNat_nonneg n]
    obtain ⟨_, _, p3, p4, p5, p6, _, _⟩ :=
      bootCols_spec u n q hq hn b 0 (List.replicate n (nboot : ℤ))
        ((n : ℤ) * nboot) hlen hposr hsumr hnb
    have hcolN : (n : ℤ) ≤ (n : ℤ) * nboot - (n : ℤ) * b := by
      have hb1 : (1 : ℤ) ≤ (nboot : ℤ) - b := by
        have : (b : ℤ) < (nboot : ℤ) := by exact_mod_cast hbn
        omega
      nlinarith [Int.ofNat_nonneg n]
    have hiN : (i : ℤ) ≤ (n : ℤ) * nboot - (n : ℤ) * b := by
      have : (i : ℤ) ≤ (n : ℤ) := by exact_mod_cast hin
      omega
    obtain ⟨_, r2, r3, r4, r5, _, _⟩ :=
      bootRows_spec u (b % n) q hq n (Nat.mod_lt b hn) i (b * n)
        (bootCols u n q b 0 (List.replicate n (nboot : ℤ)) ((n : ℤ) * nboot)).c
        (bootCols u n q b 0 (List.replicate n (nboot : ℤ)) ((n : ℤ) * nboot)).N
        p4 p5 (by rw [p6, p3]) (by rw [p3]; exact hiN)
    refine ⟨r3, r4, ?_, ?_⟩
    · show (bootRows u (b % n) q (b * n) i _ _).c.sum = (bootRows u (b % n) q (b * n) i _ _).N
      rw [r5, r2]
    · show (n : ℤ) - i ≤ (bootRows u (b % n) q (b * n) i _ _).N
      rw [r2, p3]
      have : (i : ℤ) ≤ (n : ℤ) := by exact_mod_cast hin
      omega
  refine ⟨?_, ?_, ?_, ?_, ?_⟩
  · -- entries of the full matrix
    have hnb : (n : ℤ) * nboot ≤ (n : ℤ) * nboot := le_refl _
    obtain ⟨_, _, _, _, _, _, c7, _⟩ :=
      bootCols_spec u n q hq hn nboot 0 (List.replicate n (nboot : ℤ))
        ((n : ℤ) * nboot) hlen hposr hsumr hnb
    exact c7
  · intro b i hbn hin
    exact ⟨(hstate b i hbn hin).1, (hstate b i hbn hin).2.1⟩
  · intro b i hbn hin
    obtain ⟨s1, s2, s3, s4⟩ := hstate b i hbn hin.le
    have hN : 0 < (bootStateAfter n nboot u q b i).2 := by
      have : (i : ℤ) < (n : ℤ) := by exact_mod_cast hin
      omega
    obtain ⟨j, hj, _, hdraw, _⟩ :=
      bootDraw_spec u (b % n) (q (b * n + i)) (bootStateAfter n nboot u q b i).1
        (bootStateAfter n nboot u q b i).2 (by rw [s1]; exact Nat.mod_lt b hn)
        s2 s3 hN (hq (b * n + i)).1 (hq (b * n + i)).2
    exact ⟨j, s1 ▸ hj, hdraw⟩
  · intro b i
    obtain ⟨h1, h2⟩ := bootRows_succ_right u (b % n) q i (b * n)
      (bootCols u n q b 0 (List.replicate n (nboot : ℤ)) ((n : ℤ) * nboot)).c
      (bootCols u n q b 0 (List.replicate n (nboot : ℤ)) ((n : ℤ) * nboot)).N
    show (_, _) = (_, _)
    rw [Prod.mk.injEq]
    exact ⟨h1, h2⟩
  · intro b
    obtain ⟨h1, h2⟩ := bootCols_succ_right u n q b 0 (List.replicate n (nboot : ℤ))
      ((n : ℤ) * nboot)
    simp only [Nat.zero_add] at h1 h2
    show (_, _) = (_, _)
    rw [Prod.mk.injEq]
    constructor
    · show (bootCols u n q (b + 1) 0 _ _).c = _
      rw [h1]
    · show (bootCols u n q (b + 1) 0 _ _).N = _
      rw [h2]

/-- C9 witness: concrete safety facts at `n = nboot = 2`, unbiased mode,
zero draw stream: a mid-column counter is nonnegative, and the state at
the start of column `1` equals the state after both draws of column `0`. -/
theorem boot_walk_safe_witness :
    0 < 2 ∧
    0 ≤ (bootStateAfter 2 2 true zeroDraws 1 1).1.getD 0 0 ∧
    bootStateAfter 2 2 true zeroDraws 1 0 = bootStateAfter 2 2 true zeroDraws 0 2 := by
  have h := boot_walk_safe 2 2 true zeroDraws (by decide) (by decide)
    (fun t => ⟨le_refl 0, zero_lt_one⟩)
  obtain ⟨hlen, hpos⟩ := h.2.1 1 1 (by decide) (by decide)
  refine ⟨by decide, ?_, h.2.2.2.2 0⟩
  exact hpos _ (getD_mem_of_lt (bootStateAfter 2 2 true zeroDraws 1 1).1 0
    (by rw [hlen]; decide))

/-! ## FP order facts -/

lemma getD_mem_any {α : Type} (l : List α) (d : α) (i : ℕ) (h : i < l.length) :
    l.getD i d ∈ l := by
  induction l generalizing i with
  | nil => simp at h
  | cons x t ih =>
    cases i with
    | zero => simp
    | succ i => exact List.mem_cons_of_mem _ (ih i (by simpa using h))

lemma FP.isFinite_iff (v : FP) : v.isFinite = true ↔ ∃ q : ℚ, v = FP.fin q := by
  cases v <;> simp [FP.isFinite]

lemma FP.le_fin_iff (a b : ℚ) : FP.le (FP.fin a) (FP.fin b) = true ↔ a ≤ b := by
  simp [FP.le]

lemma FP.lt_fin_iff (a b : ℚ) : FP.lt (FP.fin a) (FP.fin b) = true ↔ a < b := by
  simp [FP.lt]

lemma FP.le_refl_fin (v : FP) (h : v.isFinite = true) : FP.le v v = true := by
  cases v <;> simp_all [FP.le, FP.isFinite]

lemma FP.lt_imp_le (x y : FP) (h : FP.lt x y = true) : FP.le x y = true := by
  cases x <;> cases y <;> simp_all [FP.lt, FP.le] <;> exact le_of_lt h

lemma FP.not_lt_imp_ge (x y : FP) (hx : x.isFinite = true) (hy : y.isFinite = true)
    (h : FP.lt x y = false) : FP.le y x = true := by
  cases x <;> cases y <;> simp_all [FP.lt, FP.le, FP.isFinite]

lemma FP.le_trans_fp (x y z : FP) (h1 : FP.le x y = true) (h2 : FP.le y z = true) :
    FP.le x z = true := by
  cases x <;> cases y <;> cases z <;> simp_all [FP.le]
  exact le_trans h1 h2

/-! ## Sorting facts -/

/-- Ascending order of a value list under the IEEE `<=`. -/
def FPsorted (l : List FP) : Prop := List.Pairwise (fun x y => FP.le x y = true) l

lemma mem_insert_iff (a v : FP) (l : List FP) :
    v ∈ FP.insert a l ↔ v = a ∨ v ∈ l := by
  induction l with
  | nil => simp [FP.insert]
  | cons b t ih =>
    by_cases h : FP.lt a b = true
    · simp [FP.insert, h]
    · simp only [FP.insert, if_neg h, List.mem_cons, ih]
      tauto

lemma mem_sortList_iff (v : FP) (l : List FP) : v ∈ FP.sortList l ↔ v ∈ l := by
  induction l with
  | nil => simp [FP.sortList]
  | cons a t ih => simp [FP.sortList, mem_insert_iff, ih]

lemma length_insert (a : FP) (l : List FP) :
    (FP.insert a l).length = l.length + 1 := by
  induction l with
  | nil => simp [FP.insert]
  | cons b t ih =>
    by_cases h : FP.lt a b = true
    · simp [FP.insert, h]
    · simp [FP.insert, h, ih]

lemma length_sortList (l : List FP) : (FP.sortList l).length = l.length := by
  induction l with
  | nil => simp [FP.sortList]
  | cons a t ih => simp [FP.sortList, length_insert, ih]

lemma insert_sorted (a : FP) (l : List FP) (hfa : a.isFinite = true)
    (hfl : ∀ v ∈ l, v.isFinite = true) (hs : FPsorted l) :
    FPsorted (FP.insert a l) := by
  induction l with
  | nil => simpa [FP.insert, FPsorted] using List.pairwise_singleton _ a
  | cons b t ih =>
    have hfb : b.isFinite = true := hfl b (List.mem_cons_self b t)
    have hft : ∀ v ∈ t, v.isFinite = true :=
      fun v hv => hfl v (List.mem_cons_of_mem _ hv)
    rw [FPsorted, List.pairwise_cons] at hs
    by_cases h : FP.lt a b = true
    · rw [FP.insert, if_pos h]
      rw [FPsorted, List.pairwise_cons]
      refine ⟨?_, List.pairwise_cons.mpr hs⟩
      intro v hv
      rcases List.mem_cons.mp hv with h1 | h1
      · exact h1 ▸ FP.lt_imp_le a b h
      · exact FP.le_trans_fp a b v (FP.lt_imp_le a b h) (hs.1 v h1)
    · rw [FP.insert, if_neg h]
      rw [FPsorted, List.pairwise_cons]
      refine ⟨?_, ih hft hs.2⟩
      intro v hv
      rcases (mem_insert_iff a v t).mp hv with h1 | h1
      · exact h1 ▸ FP.not_lt_imp_ge a b hfa hfb (by simpa using h)
      · exact hs.1 v h1

lemma sortList_sorted (l : List FP) (hfl : ∀ v ∈ l, v.isFinite = true) :
    FPsorted (FP.sortList l) := by
  induction l with
  | nil => simp [FP.sortList, FPsorted]
  | cons a t ih =>
    have hfa : a.isFinite = true := hfl a (List.mem_cons_self a t)
    have hft : ∀ v ∈ t, v.isFinite = true :=
      fun v hv => hfl v (List.mem_cons_of_mem _ hv)
    exact insert_sorted a (FP.sortList t)
      hfa (fun v hv => hft v ((mem_sortList_iff v t).mp hv)) (ih hft)

lemma sorted_head_le (l : List FP) (hs : FPsorted l)
    (hfl : ∀ v ∈ l, v.isFinite = true) :
    ∀ v ∈ l, FP.le (l.getD 0 (FP.fin 0)) v = true := by
  cases l with
  | nil => simp
  | cons a t =>
    rw [FPsorted, List.pairwise_cons] at hs
    intro v hv
    rcases List.mem_cons.mp hv with h1 | h1
    · rw [h1]
      exact FP.le_refl_fin _ (h1 ▸ hfl v hv)
    · exact hs.1 v h1

lemma sorted_le_last (l : List FP) (hs : FPsorted l)
    (hfl : ∀ v ∈ l, v.isFinite = true) :
    ∀ v ∈ l, FP.le v (l.getD (l.length - 1) (FP.fin 0)) = true := by
  induction l with
  | nil => simp
  | cons a t ih =>
    rw [FPsorted, List.pairwise_cons] at hs
    intro v hv
    cases t with
    | nil =>
      rcases List.mem_cons.mp hv with h1 | h1
      · rw [h1]
        exact FP.le_refl_fin _ (h1 ▸ hfl v hv)
      · simp at h1
    | cons b t' =>
      have hlast : ((a :: b :: t').getD ((a :: b :: t').length - 1) (FP.fin 0))
          = ((b :: t').getD ((b :: t').length - 1) (FP.fin 0)) := by
        simp [List.getD_cons_succ]
      rw [hlast]
      rcases List.mem_cons.mp hv with h1 | h1
      · rw [h1]
        have hmem : ((b :: t').getD ((b :: t').length - 1) (FP.fin 0)) ∈ (b :: t') :=
          getD_mem_any _ _ _ (by simp)
        exact hs.1 _ hmem
      · exact ih hs.2 (fun w hw => hfl w (List.mem_cons_of_mem _ hw)) v h1

/-! ## Derivative pass and loop runner facts -/

lemma foldlM_except_ok {α β : Type} (f : β → α → Except SMErr β)
    (P : α → Prop) (hf : ∀ b a, P a → ∃ b', f b a = Except.ok b') :
    ∀ (l : List α) (b : β), (∀ a ∈ l, P a) → ∃ b', l.foldlM f b = Except.ok b' := by
  intro l
  induction l with
  | nil => intro b _; exact ⟨b, rfl⟩
  | cons a t ih =>
    intro b hl
    obtain ⟨b1, hb1⟩ := hf b a (hl a (List.mem_cons_self a t))
    obtain ⟨b2, hb2⟩ := ih b1 (fun a' ha' => hl a' (List.mem_cons_of_mem _ ha'))
    refine ⟨b2, ?_⟩
    rw [List.foldlM_cons, hb1]
    simpa using hb2

lemma foldlM_except_error {α β : Type} (f : β → α → Except SMErr β) (e : SMErr)
    (P : α → Prop) (hok : ∀ b a, P a → ∃ b', f b a = Except.ok b')
    (herr : ∀ b a, ¬ P a → f b a = Except.error e) :
    ∀ (l : List α) (b : β), (∃ a ∈ l, ¬ P a) → l.foldlM f b = Except.error e := by
  intro l
  induction l with
  | nil => intro b h; simp at h
  | cons a t ih =>
    intro b h
    by_cases hPa : P a
    · obtain ⟨b1, hb1⟩ := hok b a hPa
      have hex : ∃ a' ∈ t, ¬ P a' := by
        obtain ⟨a', ha', hna'⟩ := h
        rcases List.mem_cons.mp ha' with h1 | h1
        · exact absurd (h1 ▸ hPa) hna'
        · exact ⟨a', h1, hna'⟩
      rw [List.foldlM_cons, hb1]
      simpa using ih b1 hex
    · rw [List.foldlM_cons, herr b a hPa]
      rfl

/-- On an all-finite vector the derivative pass completes. -/
lemma derivTU_ok (fsq : ℚ → ℚ) (xvec : List FP) (M : FP)
    (hfin : ∀ v ∈ xvec, v.isFinite = true) :
    ∃ TU, derivTU fsq xvec M = Except.ok TU := by
  rw [derivTU]
  apply foldlM_except_ok _ (fun j => (xvec.getD j (FP.fin 0)).isFinite = true)
  · intro b j hP
    rw [List.getD_eq_getElem?_getD] at hP
    exact ⟨_, by simp [hP]; rfl⟩
  · intro j hj
    rcases Nat.lt_or_ge j xvec.length with h | h
    · exact hfin _ (getD_mem_any xvec (FP.fin 0) j h)
    · exact absurd (List.mem_range.mp hj) (by omega)

/-- A `NaN`/`Inf` value anywhere in the vector makes the derivative pass
abort with `NumericError`. -/
lemma derivTU_error (fsq : ℚ → ℚ) (xvec : List FP) (M : FP)
    (hnf : ∃ v ∈ xvec, v.isFinite = false) :
    derivTU fsq xvec M = Except.error SMErr.numericError := by
  rw [derivTU]
  apply foldlM_except_error _ _ (fun j => (xvec.getD j (FP.fin 0)).isFinite = true)
  · intro b j hP
    rw [List.getD_eq_getElem?_getD] at hP
    exact ⟨_, by simp [hP]; rfl⟩
  · intro b j hP
    have : (xvec.getD j (FP.fin 0)).isFinite = false := by
      cases hfin : (xvec.getD j (FP.fin 0)).isFinite
      · rfl
      · exact absurd hfin hP
    rw [if_pos this]
  · obtain ⟨v, hv, hnfv⟩ := hnf
    obtain ⟨i, hi, hiv⟩ := List.getElem_of_mem hv
    refine ⟨i, List.mem_range.mpr hi, ?_⟩
    have : xvec.getD i (FP.fin 0) = v := by
      rw [List.getD_eq_getElem?_getD, List.getElem?_eq_getElem hi]
      simpa using hiv
    rw [this, hnfv]
    simp

lemma solveStep_done (fsq : ℚ → ℚ) (xvec : List FP) (iter : ℕ) (s : SolveState)
    (h : s.done = true) : solveStep fsq xvec iter s = Except.ok s := by
  rw [solveStep, if_pos h]

lemma runSteps_succ (fsq : ℚ → ℚ) (xvec : List FP) (k : ℕ) (s : SolveState) :
    runSteps fsq xvec (k + 1) s =
      match runSteps fsq xvec k s with
      | Except.error e => Except.error e
      | Except.ok s' => solveStep fsq xvec k s' := rfl

/-- Once the first iteration breaks, the remaining iterations change
nothing. -/
lemma runSteps_of_done (fsq : ℚ → ℚ) (xvec : List FP) (s0 s1 : SolveState)
    (h1 : solveStep fsq xvec 0 s0 = Except.ok s1) (hd : s1.done = true) :
    ∀ k, 1 ≤ k → runSteps fsq xvec k s0 = Except.ok s1 := by
  intro k hk
  induction k with
  | zero => omega
  | succ k ih =>
    by_cases hk0 : k = 0
    · subst hk0
      rw [runSteps_succ]
      simpa [runSteps] using h1
    · rw [runSteps_succ, ih (by omega)]
      exact solveStep_done fsq xvec k s1 hd

/-- An error in the first iteration aborts the whole loop. -/
lemma runSteps_of_error (fsq : ℚ → ℚ) (xvec : List FP) (s0 : SolveState) (e : SMErr)
    (h1 : solveStep fsq xvec 0 s0 = Except.error e) :
    ∀ k, 1 ≤ k → runSteps fsq xvec k s0 = Except.error e := by
  intro k hk
  induction k with
  | zero => omega
  | succ k ih =>
    by_cases hk0 : k = 0
    · subst hk0
      rw [runSteps_succ]
      simpa [runSteps] using h1
    · rw [runSteps_succ, ih (by omega)]

/-! ## Bracket invariant of the Newton-Bisection loop -/

/-- The bracket invariant: `a`, `M`, `b` are finite, `a ≤ M ≤ b`, and the
bracket sits inside the initial bracket `[a0, b0]`. -/
def BInv (a0 b0 : ℚ) (s : SolveState) : Prop :=
  ∃ a m b : ℚ, s.a = FP.fin a ∧ s.M = FP.fin m ∧ s.b = FP.fin b ∧
    a0 ≤ a ∧ a ≤ m ∧ m ≤ b ∧ b ≤ b0

/-- Whatever the Newton step value is (finite, infinite or `nan`), the
updated estimate — the Newton point if strictly inside the bracket, the
bisection midpoint otherwise — is finite and stays inside the bracket. -/
lemma newM_bounds (step Mold : FP) (α β : ℚ) (hab : α ≤ β) :
    ∃ w : ℚ,
      (if (FP.lt (FP.fin α) (Mold.sub step) && FP.lt (Mold.sub step) (FP.fin β)) = true
        then Mold.sub step
        else (FP.fin (1/2)).mul ((FP.fin α).add (FP.fin β))) = FP.fin w ∧
      α ≤ w ∧ w ≤ β := by
  by_cases hc : (FP.lt (FP.fin α) (Mold.sub step) &&
      FP.lt (Mold.sub step) (FP.fin β)) = true
  · rw [if_pos hc]
    have h12 := hc
    simp only [Bool.and_eq_true] at h12
    obtain ⟨h1, h2⟩ := h12
    cases hnwt : Mold.sub step with
    | fin w =>
      rw [hnwt] at h1 h2
      exact ⟨w, rfl, le_of_lt ((FP.lt_fin_iff _ _).mp h1),
        le_of_lt ((FP.lt_fin_iff _ _).mp h2)⟩
    | inf =>
      rw [hnwt] at h2
      simp [FP.lt] at h2
    | ninf =>
      rw [hnwt] at h1
      simp [FP.lt] at h1
    | nan =>
      rw [hnwt] at h1
      simp [FP.lt] at h1
  · rw [if_neg hc]
    refine ⟨(1/2) * (α + β), by simp [FP.mul, FP.add], by linarith, by linarith⟩

/-- One loop iteration preserves the bracket invariant and cannot fail on
an all-finite vector. -/
lemma solveStep_BInv (fsq : ℚ → ℚ) (xvec : List FP) (iter : ℕ) (s : SolveState)
    (hfin : ∀ v ∈ xvec, v.isFinite = true) (a0 b0 : ℚ) (h : BInv a0 b0 s) :
    ∃ s', solveStep fsq xvec iter s = Except.ok s' ∧ BInv a0 b0 s' := by
  obtain ⟨a, m, b, ha, hm, hb, h0a, ham, hmb, hbb0⟩ := h
  by_cases hdone : s.done = true
  · exact ⟨s, solveStep_done fsq xvec iter s hdone,
      ⟨a, m, b, ha, hm, hb, h0a, ham, hmb, hbb0⟩⟩
  · rw [solveStep, if_neg hdone]
    by_cases hrange : FP.le s.range s.Tol = true
    · rw [if_pos hrange]
      exact ⟨_, rfl, ⟨a, m, b, ha, hm, hb, h0a, ham, hmb, hbb0⟩⟩
    · rw [if_neg hrange]
      obtain ⟨TU, hTU⟩ := derivTU_ok fsq xvec s.M hfin
      simp only [hTU]
      by_cases habs : FP.lt (TU.1.div TU.2).abs s.Tol = true
      · rw [if_pos habs]
        exact ⟨_, rfl, ⟨a, m, b, ha, hm, hb, h0a, ham, hmb, hbb0⟩⟩
      · rw [if_neg habs]
        by_cases hneg : FP.lt (TU.1.div TU.2) (FP.fin 0) = true
        · simp only [if_pos hneg, hm, hb]
          obtain ⟨w, hw, hw1, hw2⟩ := newM_bounds (TU.1.div TU.2) (FP.fin m) m b hmb
          rw [hw]
          exact ⟨_, rfl, ⟨m, w, b, rfl, rfl, rfl, le_trans h0a ham, hw1, hw2, hbb0⟩⟩
        · by_cases hpos : FP.lt (FP.fin 0) (TU.1.div TU.2) = true
          · simp only [if_neg hneg, if_pos hpos, ha, hm]
            obtain ⟨w, hw, hw1, hw2⟩ := newM_bounds (TU.1.div TU.2) (FP.fin m) a m ham
            rw [hw]
            exact ⟨_, rfl, ⟨a, w, m, rfl, rfl, rfl, h0a, hw1, hw2, le_trans hmb hbb0⟩⟩
          · simp only [if_neg hneg, if_neg hpos, ha, hm, hb]
            obtain ⟨w, hw, hw1, hw2⟩ :=
              newM_bounds (TU.1.div TU.2) (FP.fin m) a b (le_trans ham hmb)
            rw [hw]
            exact ⟨_, rfl, ⟨a, w, b, rfl, rfl, rfl, h0a, hw1, hw2, hbb0⟩⟩

/-- The whole loop preserves the bracket invariant and never fails on an
all-finite vector. -/
lemma runSteps_BInv (fsq : ℚ → ℚ) (xvec : List FP)
    (hfin : ∀ v ∈ xvec, v.isFinite = true) (a0 b0 : ℚ) :
    ∀ (k : ℕ) (s : SolveState), BInv a0 b0 s →
      ∃ s', runSteps fsq xvec k s = Except.ok s' ∧ BInv a0 b0 s' := by
  intro k
  induction k with
  | zero => intro s h; exact ⟨s, rfl, h⟩
  | succ k ih =>
    intro s h
    obtain ⟨s', hs', hB'⟩ := ih s h
    obtain ⟨s'', hs'', hB''⟩ := solveStep_BInv fsq xvec k s' hfin a0 b0 hB'
    refine ⟨s'', ?_, hB''⟩
    rw [runSteps_succ]
    simp only [hs']
    exact hs''

/-- The ordinary-median seed of a sorted all-finite vector is finite and
lies between the first and last element. -/
lemma ordinaryMedian_bounds (l : List FP) (hs : FPsorted l)
    (hfl : ∀ v ∈ l, v.isFinite = true) (hne : 0 < l.length) (a0q b0q : ℚ)
    (hhead : l.getD 0 (FP.fin 0) = FP.fin a0q)
    (hlast : l.getD (l.length - 1) (FP.fin 0) = FP.fin b0q) :
    ∃ mq : ℚ, ordinaryMedian l = FP.fin mq ∧ a0q ≤ mq ∧ mq ≤ b0q := by
  have hmi : l.length / 2 < l.length := Nat.div_lt_self hne one_lt_two
  have hmemmi : l.getD (l.length / 2) (FP.fin 0) ∈ l := getD_mem_any _ _ _ hmi
  obtain ⟨xq, hxq⟩ := (FP.isFinite_iff _).mp (hfl _ hmemmi)
  have hx1 : a0q ≤ xq := by
    have := sorted_head_le l hs hfl _ hmemmi
    rw [hhead, hxq] at this
    exact (FP.le_fin_iff _ _).mp this
  have hx2 : xq ≤ b0q := by
    have := sorted_le_last l hs hfl _ hmemmi
    rw [hlast, hxq] at this
    exact (FP.le_fin_iff _ _).mp this
  rw [ordinaryMedian]
  by_cases hpar : l.length % 2 = 0
  · have h2 : 2 ≤ l.length := by omega
    have hmi1 : l.length / 2 - 1 < l.length := by omega
    have hmemmi1 : l.getD (l.length / 2 - 1) (FP.fin 0) ∈ l := getD_mem_any _ _ _ hmi1
    obtain ⟨yq, hyq⟩ := (FP.isFinite_iff _).mp (hfl _ hmemmi1)
    have hy1 : a0q ≤ yq := by
      have := sorted_head_le l hs hfl _ hmemmi1
      rw [hhead, hyq] at this
      exact (FP.le_fin_iff _ _).mp this
    have hy2 : yq ≤ b0q := by
      have := sorted_le_last l hs hfl _ hmemmi1
      rw [hlast, hyq] at this
      exact (FP.le_fin_iff _ _).mp this
    rw [if_pos hpar, hxq, hyq]
    refine ⟨(xq + yq) * (1/2), by simp [FP.add, FP.mul], by linarith, by linarith⟩
  · rw [if_neg hpar, hxq]
    exact ⟨xq, rfl, hx1, hx2⟩

/-- The initial per-column state of a nonempty all-finite column: finite
bracket `[a0, b0]` whose ends are the minimum and maximum of the column
values, with the ordinary-median seed inside it. -/
lemma initState_spec (tolOpt : Option FP) (xvec0 : List FP) (hne : xvec0 ≠ [])
    (hfin : ∀ v ∈ xvec0, v.isFinite = true) :
    ∃ a0q b0q : ℚ,
      (initState tolOpt xvec0).a = FP.fin a0q ∧
      (initState tolOpt xvec0).b = FP.fin b0q ∧
      BInv a0q b0q (initState tolOpt xvec0) ∧
      (initState tolOpt xvec0).a ∈ xvec0 ∧
      (initState tolOpt xvec0).b ∈ xvec0 ∧
      (∀ v ∈ xvec0, FP.le ((initState tolOpt xvec0).a) v = true ∧
        FP.le v ((initState tolOpt xvec0).b) = true) := by
  have hlen : (FP.sortList xvec0).length = xvec0.length := length_sortList _
  have hpos : 0 < (FP.sortList xvec0).length := by
    rw [hlen]
    exact List.length_pos.mpr hne
  have hfins : ∀ v ∈ FP.sortList xvec0, v.isFinite = true :=
    fun v hv => hfin v ((mem_sortList_iff v xvec0).mp hv)
  have hsort : FPsorted (FP.sortList xvec0) := sortList_sorted xvec0 hfin
  have hha : (initState tolOpt xvec0).a = (FP.sortList xvec0).getD 0 (FP.fin 0) := rfl
  have hhb : (initState tolOpt xvec0).b =
      (FP.sortList xvec0).getD ((FP.sortList xvec0).length - 1) (FP.fin 0) := rfl
  have hmema : (FP.sortList xvec0).getD 0 (FP.fin 0) ∈ FP.sortList xvec0 :=
    getD_mem_any _ _ 0 hpos
  have hmemb : (FP.sortList xvec0).getD ((FP.sortList xvec0).length - 1) (FP.fin 0)
      ∈ FP.sortList xvec0 := getD_mem_any _ _ _ (by omega)
  obtain ⟨a0q, ha0q⟩ := (FP.isFinite_iff _).mp (hfins _ hmema)
  obtain ⟨b0q, hb0q⟩ := (FP.isFinite_iff _).mp (hfins _ hmemb)
  obtain ⟨mq, hmq, hm1, hm2⟩ :=
    ordinaryMedian_bounds (FP.sortList xvec0) hsort hfins hpos a0q b0q ha0q hb0q
  refine ⟨a0q, b0q, by rw [hha, ha0q], by rw [hhb, hb0q], ?_, ?_, ?_, ?_⟩
  · refine ⟨a0q, mq, b0q, by rw [hha, ha0q], ?_, by rw [hhb, hb0q],
      le_refl a0q, hm1, hm2, le_refl b0q⟩
    show ordinaryMedian (FP.sortList xvec0) = FP.fin mq
    exact hmq
  · rw [hha]
    exact (mem_sortList_iff _ _).mp hmema
  · rw [hhb]
    exact (mem_sortList_iff _ _).mp hmemb
  · intro v hv
    have hv' : v ∈ FP.sortList xvec0 := (mem_sortList_iff _ _).mpr hv
    exact ⟨by rw [hha]; exact sorted_head_le _ hsort hfins v hv',
      by rw [hhb]; exact sorted_le_last _ hsort hfins v hv'⟩

/-! ## Concrete evaluations of the solver -/

lemma initState_single5 : initState none [FP.fin 5] =
    ⟨FP.fin 5, FP.fin 5, FP.fin 5, FP.fin 0, FP.fin 0, false, false, 0⟩ := by
  simp [initState, ordinaryMedian, FP.sortList, FP.insert, FP.sub, FP.add,
    FP.neg, FP.mul, add_neg_cancel, zero_mul]

lemma stepZero_single5 (fsq : ℚ → ℚ) :
    solveStep fsq (FP.sortList [FP.fin 5]) 0 (initState none [FP.fin 5]) =
      Except.ok ⟨FP.fin 5, FP.fin 5, FP.fin 5, FP.fin 0, FP.fin 0, true, false, 0⟩ := by
  rw [initState_single5, solveStep]
  rw [if_neg (by simp)]
  rw [if_pos (by simp [FP.le])]

lemma runSteps_single5 (fsq : ℚ → ℚ) :
    runSteps fsq (FP.sortList [FP.fin 5]) 20 (initState none [FP.fin 5]) =
      Except.ok ⟨FP.fin 5, FP.fin 5, FP.fin 5, FP.fin 0, FP.fin 0, true, false, 0⟩ := by
  apply runSteps_of_done fsq (FP.sortList [FP.fin 5]) (initState none [FP.fin 5])
    _ (stepZero_single5 fsq) rfl 20 (by omega)

lemma solveColumn_single5 (fsq : ℚ → ℚ) :
    solveColumn fsq none [FP.fin 5] = Except.ok (FP.fin 5, false, 0) := by
  rw [solveColumn, runSteps_single5]
  rfl

lemma solve_single5 (fsq : ℚ → ℚ) :
    solve fsq 1 1 buf5 none none = Except.ok [(FP.fin 5, false, 0)] := by
  rw [solve]
  rw [if_neg (by decide)]
  show (List.range 1).mapM
    (fun k => solveColumn fsq none (extractVec buf5 2 1 1 k)) = _
  have hex : extractVec buf5 2 1 1 0 = [FP.fin 5] := rfl
  have hr1 : List.range 1 = [0] := rfl
  rw [hr1]
  simp only [List.mapM_cons, List.mapM_nil, hex, solveColumn_single5 fsq]
  rfl

lemma sortList_bufInf :
    FP.sortList [FP.fin 1, FP.fin 2, FP.inf] = [FP.fin 1, FP.fin 2, FP.inf] := by
  simp [FP.sortList, FP.insert, FP.lt, one_lt_two]

lemma initState_bufInf : initState none [FP.fin 1, FP.fin 2, FP.inf] =
    ⟨FP.fin 2, FP.fin 1, FP.inf, FP.inf, FP.inf, false, false, 0⟩ := by
  have h4 : (0 : ℚ) < 1 / 10000 := by norm_num
  rw [initState, sortList_bufInf]
  simp [ordinaryMedian, FP.sub, FP.add, FP.neg, FP.mul, h4]

lemma stepZero_bufInf (fsq : ℚ → ℚ) :
    solveStep fsq (FP.sortList [FP.fin 1, FP.fin 2, FP.inf]) 0
      (initState none [FP.fin 1, FP.fin 2, FP.inf]) =
      Except.ok ⟨FP.fin 2, FP.fin 1, FP.inf, FP.inf, FP.inf, true, false, 0⟩ := by
  rw [initState_bufInf, solveStep]
  rw [if_neg (by simp)]
  rw [if_pos (by simp [FP.le])]

lemma solveColumn_bufInf (fsq : ℚ → ℚ) :
    solveColumn fsq none [FP.fin 1, FP.fin 2, FP.inf] =
      Except.ok (FP.fin 2, false, 0) := by
  rw [solveColumn]
  rw [runSteps_of_done fsq (FP.sortList [FP.fin 1, FP.fin 2, FP.inf])
    (initState none [FP.fin 1, FP.fin 2, FP.inf]) _ (stepZero_bufInf fsq) rfl 20 (by omega)]
  rfl

/-! ## Claim theorems for `smoothmedian.cpp` -/

/-- C3 counterexample: the input `[1, 2, Inf]` (a `1 × 3` row, default
`dim` and default tolerance) contains an infinite value, yet `solve`
returns normally with the ordinary median `2`: the default tolerance is
`range * 1e-4 = Inf`, the first range check `Inf <= Inf` breaks out of the
loop before the finiteness check in the derivative pass is ever reached. -/
theorem solve_inf_returns_median :
    solve fsq0 1 3 bufInf none none = Except.ok [(FP.fin 2, false, 0)] := by
  rw [solve]
  rw [if_neg (by decide)]
  show (List.range 1).mapM
    (fun k => solveColumn fsq0 none (extractVec bufInf 2 3 1 k)) = _
  have hex : extractVec bufInf 2 3 1 0 = [FP.fin 1, FP.fin 2, FP.inf] := rfl
  have hr1 : List.range 1 = [0] := rfl
  rw [hr1]
  simp only [List.mapM_cons, List.mapM_nil, hex, solveColumn_bufInf fsq0]
  rfl

/-- C3 amended: a `NaN`/`Inf` input raises `NumericError` only when the
first range check fails (`range <= Tol` is false, so the derivative pass
is entered); the ordinary median of the column is computed before that
check can abort.  (With an `Inf` value and the default tolerance the range
check succeeds — `Inf <= Inf` — and the ordinary median is returned with
no error, as the counterexample shows.) -/
theorem solve_nonfinite_error (fsq : ℚ → ℚ) (tolOpt : Option FP) (xvec0 : List FP)
    (hnf : ∃ v ∈ xvec0, v.isFinite = false)
    (hrange : FP.le (initState tolOpt xvec0).range (initState tolOpt xvec0).Tol = false) :
    (initState tolOpt xvec0).M = ordinaryMedian (FP.sortList xvec0) ∧
    solveColumn fsq tolOpt xvec0 = Except.error SMErr.numericError := by
  refine ⟨rfl, ?_⟩
  have hnf' : ∃ v ∈ FP.sortList xvec0, v.isFinite = false := by
    obtain ⟨v, hv, h⟩ := hnf
    exact ⟨v, (mem_sortList_iff v xvec0).mpr hv, h⟩
  have hdone : ¬ ((initState tolOpt xvec0).done = true) := by
    rw [show (initState tolOpt xvec0).done = false from rfl]
    simp
  have hstep : solveStep fsq (FP.sortList xvec0) 0 (initState tolOpt xvec0) =
      Except.error SMErr.numericError := by
    rw [solveStep, if_neg hdone, if_neg (by rw [hrange]; simp),
      derivTU_error fsq (FP.sortList xvec0) _ hnf']
  rw [solveColumn,
    runSteps_of_error fsq (FP.sortList xvec0) (initState tolOpt xvec0) _ hstep 20 (by omega)]
  rfl

/-- C3 amended witness: `[1, 2, Inf]` with the explicit tolerance `0`
fails the first range check (`Inf <= 0` is false) and aborts with
`NumericError`. -/
theorem solve_nonfinite_error_witness :
    FP.le (initState (some (FP.fin 0)) [FP.fin 1, FP.fin 2, FP.inf]).range
      (initState (some (FP.fin 0)) [FP.fin 1, FP.fin 2, FP.inf]).Tol = false ∧
    solveColumn fsq0 (some (FP.fin 0)) [FP.fin 1, FP.fin 2, FP.inf] =
      Except.error SMErr.numericError := by
  have hrange : FP.le (initState (some (FP.fin 0)) [FP.fin 1, FP.fin 2, FP.inf]).range
      (initState (some (FP.fin 0)) [FP.fin 1, FP.fin 2, FP.inf]).Tol = false := by
    rw [initState, sortList_bufInf]
    simp [FP.le, FP.sub, FP.add, FP.neg]
  exact ⟨hrange, (solve_nonfinite_error fsq0 (some (FP.fin 0))
    [FP.fin 1, FP.fin 2, FP.inf] ⟨FP.inf, by simp, rfl⟩ hrange).2⟩

/-- C6: `solve` on the single-element input `[5]` with no `tol` supplied
returns `5`: the range (and hence the default tolerance) is `0`, the
first range check `0 <= 0` breaks immediately, so the ordinary median is
accepted with zero derivative passes and no warning. -/
theorem solve_single_element (fsq : ℚ → ℚ) :
    solve fsq 1 1 buf5 none none = Except.ok [(FP.fin 5, false, 0)] ∧
    FP.le (initState none [FP.fin 5]).range (initState none [FP.fin 5]).Tol = true ∧
    (initState none [FP.fin 5]).M = ordinaryMedian (FP.sortList [FP.fin 5]) := by
  refine ⟨solve_single5 fsq, ?_, rfl⟩
  rw [initState_single5]
  simp [FP.le]

/-- C4: on a nonempty all-finite column, for every iteration count `k` the
loop never fails and its state keeps `a <= M <= b` with the bracket inside
the initial one; the initial bracket ends are the minimum and maximum of
the column values (they belong to the column and bound every value), so
in particular the estimate after any number of iterations lies within
`[min x, max x]`. -/
theorem solve_bracket_invariant (fsq : ℚ → ℚ) (tolOpt : Option FP) (xvec0 : List FP)
    (hne : xvec0 ≠ []) (hfin : ∀ v ∈ xvec0, v.isFinite = true) (k : ℕ) :
    (runSteps fsq (FP.sortList xvec0) k (initState tolOpt xvec0)).isOk = true ∧
    (∀ s, runSteps fsq (FP.sortList xvec0) k (initState tolOpt xvec0) = Except.ok s →
      FP.le s.a s.M = true ∧ FP.le s.M s.b = true ∧
      FP.le ((initState tolOpt xvec0).a) s.a = true ∧
      FP.le s.b ((initState tolOpt xvec0).b) = true ∧
      FP.le ((initState tolOpt xvec0).a) s.M = true ∧
      FP.le s.M ((initState tolOpt xvec0).b) = true) ∧
    (initState tolOpt xvec0).a ∈ xvec0 ∧
    (initState tolOpt xvec0).b ∈ xvec0 ∧
    (∀ v ∈ xvec0, FP.le ((initState tolOpt xvec0).a) v = true ∧
      FP.le v ((initState tolOpt xvec0).b) = true) := by
  obtain ⟨a0q, b0q, hA, hB, hBI, hmema, hmemb, hbnd⟩ :=
    initState_spec tolOpt xvec0 hne hfin
  have hfins : ∀ v ∈ FP.sortList xvec0, v.isFinite = true :=
    fun v hv => hfin v ((mem_sortList_iff v xvec0).mp hv)
  obtain ⟨s', hs', hB'⟩ :=
    runSteps_BInv fsq (FP.sortList xvec0) hfins a0q b0q k (initState tolOpt xvec0) hBI
  refine ⟨by rw [hs']; rfl, ?_, hmema, hmemb, hbnd⟩
  intro s hs
  rw [hs'] at hs
  have hss : s' = s := by
    simp only [Except.ok.injEq] at hs
    exact hs
  subst hss
  obtain ⟨a, m, b, ha, hm, hb, h0a, ham, hmb, hbb0⟩ := hB'
  rw [ha, hm, hb, hA, hB]
  exact ⟨(FP.le_fin_iff _ _).mpr ham, (FP.le_fin_iff _ _).mpr hmb,
    (FP.le_fin_iff _ _).mpr h0a, (FP.le_fin_iff _ _).mpr hbb0,
    (FP.le_fin_iff _ _).mpr (le_trans h0a ham),
    (FP.le_fin_iff _ _).mpr (le_trans hmb hbb0)⟩

/-- C4 witness: the column `[5]` is nonempty and all-finite; after the
full 20 iterations the loop state exists and satisfies `a <= M`. -/
theorem solve_bracket_invariant_witness :
    [FP.fin 5] ≠ [] ∧
    (runSteps fsq0 (FP.sortList [FP.fin 5]) 20 (initState none [FP.fin 5])).isOk = true ∧
    FP.le (FP.fin 5) (FP.fin 5) = true := by
  have h := solve_bracket_invariant fsq0 none [FP.fin 5] (by simp)
    (by simp [FP.isFinite]) 20
  refine ⟨by simp, h.1, ?_⟩
  exact (h.2.1 _ (runSteps_single5 fsq0)).1

/-- Loop bookkeeping: starting from a fresh state, after `k <= 20`
iterations at most `k` derivative passes have run, and the warning flag is
set exactly when all 20 iterations ran their full body (no break ever
fired, i.e. the final state is not `done`). -/
lemma runSteps_cap (fsq : ℚ → ℚ) (xvec : List FP) (s0 : SolveState)
    (hp : s0.passes = 0) (hw : s0.warned = false) :
    ∀ k, k ≤ 20 → ∀ s, runSteps fsq xvec k s0 = Except.ok s →
      s.passes ≤ k ∧ (s.warned = true ↔ (k = 20 ∧ s.done = false)) := by
  intro k
  induction k with
  | zero =>
    intro _ s hs
    have hss : s0 = s := by
      simp only [runSteps, Except.ok.injEq] at hs
      exact hs
    subst hss
    simp [hp, hw]
  | succ k ih =>
    intro hk20 s hs
    rw [runSteps_succ] at hs
    cases hrs : runSteps fsq xvec k s0 with
    | error e => rw [hrs] at hs; exact absurd hs (by simp)
    | ok s' =>
      rw [hrs] at hs
      replace hs : solveStep fsq xvec k s' = Except.ok s := hs
      obtain ⟨hps', hws'⟩ := ih (by omega) s' hrs
      have hwfalse : s'.warned = false := by
        cases hcase : s'.warned
        · rfl
        · exact absurd ((hws'.mp hcase).1) (by omega)
      unfold solveStep at hs
      by_cases hdone : s'.done = true
      · rw [if_pos hdone] at hs
        have hss : s' = s := by
          simp only [Except.ok.injEq] at hs
          exact hs
        subst hss
        refine ⟨by omega, ?_⟩
        rw [hwfalse, hdone]
        simp
      · rw [if_neg hdone] at hs
        by_cases hrange : FP.le s'.range s'.Tol = true
        · rw [if_pos hrange] at hs
          have hss : { s' with done := true } = s := by
            simp only [Except.ok.injEq] at hs
            exact hs
          subst hss
          refine ⟨by show s'.passes ≤ k + 1; omega, ?_⟩
          show s'.warned = true ↔ (k + 1 = 20 ∧ true = false)
          rw [hwfalse]
          simp
        · rw [if_neg hrange] at hs
          cases hTU : derivTU fsq xvec s'.M with
          | error e => rw [hTU] at hs; exact absurd hs (by simp)
          | ok TU =>
            rw [hTU] at hs
            simp only [] at hs
            by_cases habs : FP.lt (TU.1.div TU.2).abs s'.Tol = true
            · rw [if_pos habs] at hs
              have hss : { s' with done := true, passes := s'.passes + 1 } = s := by
                simp only [Except.ok.injEq] at hs
                exact hs
              subst hss
              refine ⟨by show s'.passes + 1 ≤ k + 1; omega, ?_⟩
              show s'.warned = true ↔ (k + 1 = 20 ∧ true = false)
              rw [hwfalse]
              simp
            · rw [if_neg habs] at hs
              have hs2 := hs
              simp only [Except.ok.injEq] at hs2
              subst hs2
              refine ⟨?_, ?_⟩
              · show s'.passes + 1 ≤ k + 1
                omega
              · show (s'.warned || decide (k = 19)) = true ↔ (k + 1 = 20 ∧ false = false)
                rw [hwfalse]
                simp only [Bool.false_or, decide_eq_true_eq]
                constructor
                · intro h19
                  exact ⟨by omega, trivial⟩
                · intro h20
                  omega

/-- C5: the loop of a column executes its body at most 20 times
(`MaxIter = 19` additional iterations after the first); when the cap is
exhausted without either the range criterion or the step criterion firing
(the final state is not `done`), the non-fatal warning flag is set — and
only then; the last computed `M` is stored as the column's result and the
call completes normally (the per-column flag in the result list identifies
the 1-based column index by its position). -/
theorem solve_iteration_cap (fsq : ℚ → ℚ) (tolOpt : Option FP) (xvec0 : List FP) :
    ∀ s, runSteps fsq (FP.sortList xvec0) 20 (initState tolOpt xvec0) = Except.ok s →
      s.passes ≤ 20 ∧ (s.warned = true ↔ s.done = false) ∧
      solveColumn fsq tolOpt xvec0 = Except.ok (s.M, s.warned, s.passes) := by
  intro s hs
  obtain ⟨h1, h2⟩ := runSteps_cap fsq (FP.sortList xvec0) (initState tolOpt xvec0)
    rfl rfl 20 (le_refl 20) s hs
  refine ⟨h1, ?_, ?_⟩
  · rw [h2]
    simp
  · rw [solveColumn, hs]
    rfl

/-- C5 witness: on the column `[5]` the loop finishes with zero passes
(`0 <= 20`) and the stored result is the last `M`, namely `5`. -/
theorem solve_iteration_cap_witness :
    (0 : ℕ) ≤ 20 ∧ solveColumn fsq0 none [FP.fin 5] = Except.ok (FP.fin 5, false, 0) := by
  have h := solve_iteration_cap fsq0 none [FP.fin 5] _ (runSteps_single5 fsq0)
  exact ⟨h.1, h.2.2⟩

/-- C7: when the leading dimension of `x` is singleton (`sz0 = 1`), any
requested `dim` that passes validation (`1` or `2`) — and likewise an
absent `dim` — produces exactly the row-wise (`dim = 2`) processing. -/
theorem solve_singleton_rowwise (fsq : ℚ → ℚ) (sz1 : ℕ) (x : ℕ → FP)
    (tolOpt : Option FP) (d : ℤ) (hd : d = 1 ∨ d = 2) :
    solve fsq 1 sz1 x (some d) tolOpt = solve fsq 1 sz1 x (some 2) tolOpt ∧
    solve fsq 1 sz1 x none tolOpt = solve fsq 1 sz1 x (some 2) tolOpt := by
  constructor
  · rcases hd with h | h <;> subst h <;> rfl
  · rfl

/-- C7 witness: for the `1 × 1` buffer `[5]`, requesting `dim = 1` gives
the same call result as requesting `dim = 2`. -/
theorem solve_singleton_rowwise_witness :
    ((1 : ℤ) = 1 ∨ (1 : ℤ) = 2) ∧
    solve fsq0 1 1 buf5 (some 1) none = solve fsq0 1 1 buf5 (some 2) none := by
  exact ⟨Or.inl rfl, (solve_singleton_rowwise fsq0 1 buf5 none 1 (Or.inl rfl)).1⟩

/-- C10: `dim` is validated before the singleton-leading-dimension
override: for every buffer — including those with `sz0 = 1` — a supplied
`dim` outside `{1, 2}` raises `InvalidArgument`. -/
theorem solve_invalid_dim (fsq : ℚ → ℚ) (sz0 sz1 : ℕ) (x : ℕ → FP) (d : ℤ)
    (tolOpt : Option FP) (hd1 : d ≠ 1) (hd2 : d ≠ 2) :
    solve fsq sz0 sz1 x (some d) tolOpt = Except.error SMErr.invalidArgument := by
  rw [solve]
  exact if_pos ⟨hd1, hd2⟩

/-- C10 witness: `dim = 3` on a singleton-leading-dimension input raises
`InvalidArgument`. -/
theorem solve_invalid_dim_witness :
    (3 : ℤ) ≠ 1 ∧ (3 : ℤ) ≠ 2 ∧
    solve fsq0 1 1 buf5 (some 3) none = Except.error SMErr.invalidArgument := by
  exact ⟨by decide, by decide,
    solve_invalid_dim fsq0 1 1 buf5 3 none (by decide) (by decide)⟩

/-- C6 witness: the concrete call instantiated at the fixed square-root
parameter. -/
theorem solve_single_element_witness :
    solve fsq0 1 1 buf5 none none = Except.ok [(FP.fin 5, false, 0)] :=
  (solve_single_element fsq0).1
